import Mathlib

/-!
Verification development for the ViPilot resume parsing and scoring backend.

The Python sources are shallowly embedded here:
* character and string helpers model the Python str operations used by the
  backend (lower, strip, title, substring containment, splitting);
* a small backtracking pattern engine models the Python re module semantics
  (leftmost start, alternation in order, greedy quantifiers over character
  classes, word boundaries, end anchor) for the concrete patterns that appear
  in the sources;
* the scorer (resumeScorer.py, class ResumeScorer) and the parser
  (resumeParse.py, class ResumeParser) are translated function by function.

Numeric score arithmetic is modelled over the rationals; the Python
round(x, 2) is modelled by rounding to the nearest multiple of 1/100.
The embedding provider (SentenceTransformer) is an external collaborator and
is modelled as an optional oracle giving cosine similarities; an unavailable
model is the value none, mirroring ModelManager.get_model returning None.
-/

namespace ViPilot

/-! ## ASCII character helpers (model of the Python str case operations) -/

/-- ASCII lowercase conversion of one character, as Python lower on ASCII. -/
def lowChar (c : Char) : Char :=
  if 65 ≤ c.toNat ∧ c.toNat ≤ 90 then Char.ofNat (c.toNat + 32) else c

/-- ASCII uppercase conversion of one character, as Python upper on ASCII. -/
def upChar (c : Char) : Char :=
  if 97 ≤ c.toNat ∧ c.toNat ≤ 122 then Char.ofNat (c.toNat - 32) else c

/-- ASCII letter test (model of the Python str.isalpha on ASCII text). -/
def isAsciiAlpha (c : Char) : Bool :=
  (65 ≤ c.toNat ∧ c.toNat ≤ 90) ∨ (97 ≤ c.toNat ∧ c.toNat ≤ 122)

/-- ASCII digit test. -/
def isAsciiDigit (c : Char) : Bool :=
  48 ≤ c.toNat ∧ c.toNat ≤ 57

/-- Python whitespace class: space, tab, newline, carriage return, form feed,
vertical tab. -/
def isPySpace (c : Char) : Bool :=
  c == ' ' || c == '\t' || c == '\n' || c == '\r' || c == '\x0c' || c == '\x0b'

/-- Regex word character, the class matched by backslash-w. -/
def isWordChar (c : Char) : Bool :=
  isAsciiAlpha c || isAsciiDigit c || c == '_'

/-! ## Python string operations on character lists -/

/-- Python str.lower on a character list (ASCII model). -/
def lowerL (l : List Char) : List Char := l.map lowChar

/-- Lexicographic comparison of character lists by code point, the order the
Python sorted builtin uses on strings. -/
def strLeB : List Char → List Char → Bool
  | [], _ => true
  | _ :: _, [] => false
  | a :: as, b :: bs =>
    if a.toNat < b.toNat then true
    else if b.toNat < a.toNat then false
    else strLeB as bs

/-- The Python string order, as a relation on strings. -/
def pyStrLe (a b : String) : Prop := strLeB a.data b.data = true

instance : DecidableRel pyStrLe := fun a b => by
  unfold pyStrLe; infer_instance

/-- Python str.strip on a character list: drop whitespace from both ends. -/
def stripL (l : List Char) : List Char :=
  ((l.dropWhile isPySpace).reverse.dropWhile isPySpace).reverse

/-- Python substring containment: does the needle occur inside the haystack. -/
def hasSubL (hay needle : List Char) : Bool :=
  match hay with
  | [] => needle.isEmpty
  | _ :: t => needle.isPrefixOf hay || hasSubL t needle

/-- Python str.title on a character list: a letter that follows a non-letter
is uppercased, any other letter is lowercased (ASCII model of the cased
classification used by Python). -/
def titleAux : Bool → List Char → List Char
  | _, [] => []
  | prevCased, c :: r =>
    if isAsciiAlpha c then
      (if prevCased then lowChar c else upChar c) :: titleAux true r
    else
      c :: titleAux false r

/-- String wrappers used throughout the embedding. -/
def pyLower (s : String) : String := ⟨lowerL s.data⟩

/-- Python str.strip as a String operation. -/
def pyStrip (s : String) : String := ⟨stripL s.data⟩

/-- Python str.title as a String operation. -/
def pyTitle (s : String) : String := ⟨titleAux false s.data⟩

/-- The Python expression needle in hay for strings. -/
def pySub (needle hay : String) : Bool := hasSubL hay.data needle.data

/-- Split a character list at every character satisfying p, keeping empty
pieces, as re.split on a character class does. -/
def splitClAux (p : Char → Bool) : List Char → List Char → List (List Char)
  | acc, [] => [acc.reverse]
  | acc, c :: r =>
    if p c then acc.reverse :: splitClAux p [] r else splitClAux p (c :: acc) r

/-- Split a string on a character class, keeping empty pieces. -/
def splitCl (p : Char → Bool) (s : String) : List String :=
  (splitClAux p [] s.data).map (fun l => ⟨l⟩)

/-- Whitespace tokenisation with no empty pieces, as Python str.split with no
argument. -/
def wordsAux : List Char → List Char → List (List Char)
  | acc, [] => if acc.isEmpty then [] else [acc.reverse]
  | acc, c :: r =>
    if isPySpace c then
      (if acc.isEmpty then wordsAux [] r else acc.reverse :: wordsAux [] r)
    else wordsAux (c :: acc) r

/-- Python str.split with no argument. -/
def pyWords (s : String) : List String := (wordsAux [] s.data).map (fun l => ⟨l⟩)

/-- Split a string into lines at the newline character, as str.split with a
newline argument (keeps empty pieces). -/
def splitNl (s : String) : List String := splitCl (· == '\n') s

/-! ## Backtracking pattern engine

A matcher takes the input suffix and returns the candidate matches at its
start, each as the pair of the consumed characters and the remaining suffix,
listed in the backtracking priority order of the Python re module: earlier
alternatives first, longer repetitions of a greedy quantifier first. Every
quantifier appearing in the sources ranges over a single character class, so
repetition needs no general fixpoint. -/

abbrev Matches := List Char → List (List Char × List Char)

/-- Match the empty pattern. -/
def mEps : Matches := fun s => [([], s)]

/-- Match one character of a class. -/
def mCls (p : Char → Bool) : Matches := fun s =>
  match s with
  | c :: r => if p c then [([c], r)] else []
  | [] => []

/-- Concatenation, with the backtracking order of the left factor outermost. -/
def mSeq (a b : Matches) : Matches := fun s =>
  (a s).flatMap (fun pr => (b pr.2).map (fun qr => (pr.1 ++ qr.1, qr.2)))

/-- Concatenation of a list of patterns. -/
def mSeqs (l : List Matches) : Matches := l.foldr mSeq mEps

/-- Alternation, tried in the given order. -/
def mAlts (l : List Matches) : Matches := fun s => l.flatMap (fun m => m s)

/-- Greedy option: the present branch is tried first. -/
def mOpt (a : Matches) : Matches := fun s => a s ++ [([], s)]

/-- Greedy star over a character class: longest repetition first. -/
def mStarCls (p : Char → Bool) : Matches := fun s =>
  let n := (s.takeWhile p).length
  (List.range (n + 1)).map (fun k => (s.take (n - k), s.drop (n - k)))

/-- Greedy plus over a character class. -/
def mPlusCls (p : Char → Bool) : Matches := mSeq (mCls p) (mStarCls p)

/-- Exactly n repetitions of a character class. -/
def mRep (p : Char → Bool) (n : Nat) : Matches := mSeqs (List.replicate n (mCls p))

/-- Between lo and hi repetitions of a character class, longest first. -/
def mRepRange (p : Char → Bool) (lo hi : Nat) : Matches := fun s =>
  ((List.range (hi - lo + 1)).map (fun k => hi - k)).flatMap (fun n => mRep p n s)

/-- Case sensitive literal. -/
def mLit (t : String) : Matches := fun s =>
  if t.data.isPrefixOf s then [(s.take t.data.length, s.drop t.data.length)] else []

/-- Case insensitive literal, as a pattern compiled with re.IGNORECASE; the
consumed characters keep the original case of the input. -/
def mLitI (t : String) : Matches := fun s =>
  let n := t.data.length
  if lowerL (s.take n) == lowerL t.data then [(s.take n, s.drop n)] else []

/-- End anchor: succeeds only at the end of the input. -/
def mEnd : Matches := fun s => if s.isEmpty then [([], s)] else []

/-- Word boundary test between two optional neighbouring characters; out of
range counts as a non word character. -/
def bdOk (a b : Option Char) : Bool :=
  (match a with | some c => isWordChar c | none => false)
    != (match b with | some c => isWordChar c | none => false)

/-- A match found by a search: the characters before the match, the consumed
characters, and the characters after the match. -/
structure ReFound where
  pre : List Char
  grp : List Char
  post : List Char
deriving Repr, DecidableEq

/-- Leftmost search as re.search: starting positions are tried left to right
and at each position the candidates come in backtracking order. The flags bl
and br ask for a word boundary before and after the match, fpost is an extra
acceptance condition on the suffix after the match (used for a trailing
subpattern whose text is recovered as a group), and prev is the character
just before the current position. -/
def reSearchAux (m : Matches) (bl br : Bool) (fpost : List Char → Bool) :
    Option Char → List Char → List Char → Option ReFound
  | prev, seen, s =>
    let cands := (m s).filter (fun pr =>
      (!bl || bdOk prev (pr.1.head?.orElse (fun _ => s.head?)))
      && (!br || bdOk (pr.1.getLast?.orElse (fun _ => prev)) pr.2.head?)
      && fpost pr.2)
    match cands.head? with
    | some pr => some ⟨seen.reverse, pr.1, pr.2⟩
    | none =>
      match s with
      | [] => none
      | c :: r => reSearchAux m bl br fpost (some c) (c :: seen) r

/-- Leftmost search from a given left context character. -/
def reFindFrom? (m : Matches) (bl br : Bool) (prev : Option Char) (s : List Char) :
    Option ReFound :=
  reSearchAux m bl br (fun _ => true) prev [] s

/-- Leftmost search on a whole string. -/
def reFind? (m : Matches) (bl br : Bool) (s : List Char) : Option ReFound :=
  reFindFrom? m bl br none s

/-- Leftmost search with an extra acceptance condition on the suffix. -/
def reFindPost? (m : Matches) (fpost : List Char → Bool) (s : List Char) :
    Option ReFound :=
  reSearchAux m false false fpost none [] s

/-- Replace every non overlapping occurrence, scanning left to right, as
re.sub. The fuel argument bounds the recursion; it is always sufficient
because every pattern given to it consumes at least one character. -/
def reSubAllF (m : Matches) (bl br : Bool) (repl : List Char) :
    Nat → Option Char → List Char → List Char
  | 0, _, s => s
  | fuel + 1, prev, s =>
    match reSearchAux m bl br (fun _ => true) prev [] s with
    | none => s
    | some f =>
      if f.grp.isEmpty then s
      else f.pre ++ repl ++ reSubAllF m bl br repl fuel f.grp.getLast? f.post

/-- Replace every occurrence of the pattern, as re.sub. -/
def reSubAll (m : Matches) (bl br : Bool) (repl : List Char) (s : List Char) :
    List Char :=
  reSubAllF m bl br repl (s.length + 1) none s

/-- All non overlapping matches, scanning left to right, as re.findall. -/
def reFindAllF (m : Matches) (bl br : Bool) :
    Nat → Option Char → List Char → List (List Char)
  | 0, _, _ => []
  | fuel + 1, prev, s =>
    match reSearchAux m bl br (fun _ => true) prev [] s with
    | none => []
    | some f =>
      if f.grp.isEmpty then []
      else f.grp :: reFindAllF m bl br fuel f.grp.getLast? f.post

/-- All matches of the pattern, as re.findall. -/
def reFindAll (m : Matches) (bl br : Bool) (s : List Char) : List (List Char) :=
  reFindAllF m bl br (s.length + 1) none s

/-! ## The resume scorer (resumeScorer.py, class ResumeScorer)

The embedding provider is an external collaborator. It is modelled by an
optional oracle: sim gives the cosine similarity between the encoding of a
skill and the encoding of a sentence (encode is deterministic per the
collaborator contract, so precomputing sentence embeddings once per scoring
call is semantically transparent and is not modelled separately), and
simFails records whether the similarity computation for a given skill raises
an exception, which the source catches per skill. A failed model load
(ModelManager.get_model returning None) is the value none. -/

structure EmbedModel where
  sim : String → String → ℚ
  simFails : String → Bool

namespace Scorer

/-- normalize_skill: skill.strip().lower(). -/
def normalize_skill (skill : String) : String := pyLower (pyStrip skill)

/-- The fixed action verb set of the scorer (ACTION_VERBS). -/
def ACTION_VERBS : List String :=
  ["build", "develop", "design", "implement",
   "optimize", "deploy", "scale", "integrate",
   "maintain", "architect", "create", "manage",
   "lead", "engineer", "test", "debug"]

/-- Result of is_contextual. -/
structure CtxResult where
  contextual : Bool
  evidence : Option String
deriving Repr, DecidableEq

/-- is_contextual: the first non empty sentence that contains the normalized
skill and also contains some action verb (both as plain substrings of the
lowercased sentence) makes the skill contextual, with that sentence,
stripped, as evidence. The source keeps scanning when a sentence contains
the skill but no verb. -/
def is_contextual (skill : String) (sentences : List String) : CtxResult :=
  let skill_norm := normalize_skill skill
  match sentences.find? (fun sentence =>
      !(sentence == "")
      && pySub skill_norm (pyLower sentence)
      && ACTION_VERBS.any (fun v => pySub v (pyLower sentence))) with
  | some sentence => ⟨true, some (pyStrip sentence)⟩
  | none => ⟨false, none⟩

/-- Result of find_semantic_match; found stands for the Python key match. -/
structure SemResult where
  found : Bool
  confidence : ℚ
  evidence : Option String
deriving Repr, DecidableEq

/-- First index of the maximal value of a list, as torch.argmax composed with
torch.max; the accumulator keeps the first maximum because only a strictly
greater value replaces it. -/
def bestOf : Nat → (Nat × ℚ) → List ℚ → (Nat × ℚ)
  | _, best, [] => best
  | i, best, q :: r => bestOf (i + 1) (if best.2 < q then (i, q) else best) r

/-- find_semantic_match: with no model or no sentences there is no match;
otherwise textual recovery first (first non empty sentence containing the
normalized skill as a substring, confidence 1), then the embedding check:
cosine similarity of the raw skill against every sentence, accepting the
best sentence when its score exceeds 0.60. An exception inside the
similarity computation is caught and yields no match. -/
def find_semantic_match (model : Option EmbedModel) (missing_jd_skill : String)
    (resume_sentences : List String) : SemResult :=
  match model with
  | none => ⟨false, 0, none⟩
  | some m =>
    if resume_sentences.isEmpty then ⟨false, 0, none⟩
    else
      let skill_norm := normalize_skill missing_jd_skill
      match resume_sentences.find? (fun sentence =>
          !(sentence == "") && pySub skill_norm (pyLower sentence)) with
      | some sentence => ⟨true, 1, some (pyStrip sentence)⟩
      | none =>
        if m.simFails missing_jd_skill then ⟨false, 0, none⟩
        else
          let scores := resume_sentences.map (m.sim missing_jd_skill)
          let best := bestOf 1 (0, scores.headI) scores.tail
          if best.2 > 3/5 then
            ⟨true, best.2, some (pyStrip (resume_sentences.getD best.1 ""))⟩
          else ⟨false, 0, none⟩

/-- The jd_data dictionary handed to score (keys must_have and good_to_have;
all_keywords is not read by score). -/
structure JdData where
  must_have : List String
  good_to_have : List String
deriving Repr

/-- extract_skills_from_jd: the set of normalized skills of one tier,
modelled as a list deduplicated at first occurrence (the source builds a
Python set; only membership and cardinality of the set are observable in the
result, so the order is a representation choice). -/
def extract_skills_from_jd (jd_text_list : List String) : List String :=
  jd_text_list.foldl
    (fun acc item =>
      let n := normalize_skill item
      if n ∈ acc then acc else acc ++ [n])
    []

/-- The normalized resume skill set resume_skills_set. -/
def resumeSkillsSet (resume_skills : List String) : List String :=
  resume_skills.map normalize_skill

/-- The must have target set of a scoring call. -/
def mustTargets (jd : JdData) : List String := extract_skills_from_jd jd.must_have

/-- The good to have target set of a scoring call. -/
def goodTargets (jd : JdData) : List String := extract_skills_from_jd jd.good_to_have

/-- How process_skills classifies one target skill: exact match (with the
contextual check), else semantic recovery, else missing. -/
inductive SkillOutcome where
  | exact (ctx : CtxResult)
  | semantic (sem : SemResult)
  | missing
deriving Repr, DecidableEq

/-- Classification of one target skill inside process_skills. -/
def classify (model : Option EmbedModel) (rset : List String)
    (sentences : List String) (skill : String) : SkillOutcome :=
  if normalize_skill skill ∈ rset then .exact (is_contextual skill sentences)
  else
    let sem := find_semantic_match model skill sentences
    if sem.found then .semantic sem else .missing

/-- Score contribution of one target skill at tier weight category_weight:
an exact match contributes weight times 1.0, boosted to 1.3 when contextual;
a semantic recovery contributes weight times 0.6; a missing skill
contributes nothing. -/
def contribution (model : Option EmbedModel) (rset : List String)
    (sentences : List String) (category_weight : ℚ) (skill : String) : ℚ :=
  match classify model rset sentences skill with
  | .exact ctx => category_weight * (if ctx.contextual then 1 + 3/10 else 1)
  | .semantic _ => category_weight * (3/5)
  | .missing => 0

/-- current_score after both process_skills passes (must have at weight 1,
good to have at weight 0.5). -/
def currentScore (model : Option EmbedModel) (resume_skills : List String)
    (jd : JdData) (sentences : List String) : ℚ :=
  let rset := resumeSkillsSet resume_skills
  ((mustTargets jd).map (contribution model rset sentences 1)).sum
    + ((goodTargets jd).map (contribution model rset sentences (1/2))).sum

/-- total_possible after both passes: the sum of the tier weights. -/
def totalPossible (jd : JdData) : ℚ :=
  ((mustTargets jd).length : ℚ) * 1 + ((goodTargets jd).length : ℚ) * (1/2)

/-- The raw score: contributions over total possible, times 100, and 0 when
nothing was asked for. -/
def rawScore (model : Option EmbedModel) (resume_skills : List String)
    (jd : JdData) (sentences : List String) : ℚ :=
  if totalPossible jd = 0 then 0
  else currentScore model resume_skills jd sentences / totalPossible jd * 100

/-- The breakdown list matches.exact: targets with an exact match, in
processing order (must have pass then good to have pass). -/
def exactList (model : Option EmbedModel) (resume_skills : List String)
    (jd : JdData) (sentences : List String) : List String :=
  let rset := resumeSkillsSet resume_skills
  let p : String → Bool := fun t =>
    match classify model rset sentences t with
    | .exact _ => true
    | _ => false
  (mustTargets jd).filter p ++ (goodTargets jd).filter p

/-- The breakdown list matches.contextual: exact matches whose contextual
check fired, with their evidence sentence. -/
def contextualList (model : Option EmbedModel) (resume_skills : List String)
    (jd : JdData) (sentences : List String) : List (String × Option String) :=
  let rset := resumeSkillsSet resume_skills
  let p : String → Option (String × Option String) := fun t =>
    match classify model rset sentences t with
    | .exact ctx => if ctx.contextual then some (t, ctx.evidence) else none
    | _ => none
  (mustTargets jd).filterMap p ++ (goodTargets jd).filterMap p

/-- The breakdown list matches.semantic: recovered skills with evidence and
confidence. -/
def semanticList (model : Option EmbedModel) (resume_skills : List String)
    (jd : JdData) (sentences : List String) : List (String × Option String × ℚ) :=
  let rset := resumeSkillsSet resume_skills
  let p : String → Option (String × Option String × ℚ) := fun t =>
    match classify model rset sentences t with
    | .semantic sem => some (t, sem.evidence, sem.confidence)
    | _ => none
  (mustTargets jd).filterMap p ++ (goodTargets jd).filterMap p

/-- The breakdown list matches.missing. -/
def missingList (model : Option EmbedModel) (resume_skills : List String)
    (jd : JdData) (sentences : List String) : List String :=
  let rset := resumeSkillsSet resume_skills
  let p : String → Bool := fun t =>
    match classify model rset sentences t with
    | .missing => true
    | _ => false
  (mustTargets jd).filter p ++ (goodTargets jd).filter p

/-- missing_must: how many entries of matches.missing lie in the must have
set (an entry present in both tiers is counted once per occurrence, as the
source list comprehension does). -/
def missingMustCount (model : Option EmbedModel) (resume_skills : List String)
    (jd : JdData) (sentences : List String) : Nat :=
  ((missingList model resume_skills jd sentences).filter
    (· ∈ mustTargets jd)).length

/-- The penalty test: must have skills exist and more than 0.4 of them are
missing. -/
def penaltyApplied (model : Option EmbedModel) (resume_skills : List String)
    (jd : JdData) (sentences : List String) : Bool :=
  if mustTargets jd = [] then false
  else decide (((missingMustCount model resume_skills jd sentences : ℚ)
    / ((mustTargets jd).length : ℚ)) > 2/5)

/-- final_score before rounding: the raw score, multiplied by 0.6 when the
penalty applies. -/
def finalScore (model : Option EmbedModel) (resume_skills : List String)
    (jd : JdData) (sentences : List String) : ℚ :=
  if penaltyApplied model resume_skills jd sentences then
    rawScore model resume_skills jd sentences * (3/5)
  else rawScore model resume_skills jd sentences

/-- The verdict thresholds of the source. -/
def verdictOf (final_score : ℚ) : String :=
  if final_score ≥ 75 then "Strong Fit"
  else if final_score ≥ 50 then "Moderate Fit"
  else "Weak Fit"

/-- Python round(x, 2) modelled over the rationals: round to the nearest
multiple of 1/100. -/
def round2 (q : ℚ) : ℚ := ((round (q * 100) : ℤ) : ℚ) / 100

/-- The dictionary returned by score. -/
structure ScoreResult where
  score : ℚ
  verdict : String
  exact : List String
  contextual : List (String × Option String)
  semantic : List (String × Option String × ℚ)
  missing : List String
  total_must_have : Nat
  total_good_to_have : Nat
deriving Repr

/-- ResumeScorer.score assembled from the pieces above. -/
def score (model : Option EmbedModel) (resume_skills : List String)
    (jd_data : JdData) (resume_sentences : List String) : ScoreResult :=
  { score := round2 (finalScore model resume_skills jd_data resume_sentences)
    verdict := verdictOf (finalScore model resume_skills jd_data resume_sentences)
    exact := exactList model resume_skills jd_data resume_sentences
    contextual := contextualList model resume_skills jd_data resume_sentences
    semantic := semanticList model resume_skills jd_data resume_sentences
    missing := missingList model resume_skills jd_data resume_sentences
    total_must_have := (mustTargets jd_data).length
    total_good_to_have := (goodTargets jd_data).length }

end Scorer

/-! ## The resume parser (resumeParse.py, class ResumeParser)

Only the members reached from parse_text are embedded: extract_basic_info,
split_into_sections with its helper _extract_tech_from_line, extract_skills,
extract_education, and the sentence split. The experience extractor and
fix_spacing are not reachable from parse_text in the source. -/

namespace Parse

/-- The known_skills dictionary, in source order. -/
def known_skills : List String :=
  ["python", "java", "javascript", "c++", "c", "kotlin", "sql",
   "typescript", "go", "rust", "php", "swift", "r", "scala",
   "react", "reactjs", "react.js", "angular", "vue", "vue.js",
   "node.js", "nodejs", "express", "express.js", "django", "flask",
   "fastapi", "spring", "spring boot", "tensorflow", "pytorch",
   "keras", "scikit-learn", "pandas", "numpy", "matplotlib",
   "next.js", "nextjs", "streamlit", "jetpack compose",
   "ktor", "room", "hilt",
   "mongodb", "mysql", "postgresql", "firebase", "redis",
   "supabase", "oracle", "cassandra", "dynamodb", "firestore",
   "aws", "azure", "gcp", "docker", "kubernetes", "ci/cd",
   "jenkins", "github actions", "terraform", "ansible",
   "git", "github", "gitlab", "postman", "jira", "linux",
   "tableau", "power bi", "powerbi", "excel", "kafka",
   "opencv", "selenium", "websocket", "rest api", "graphql",
   "jwt", "razorpay",
   "gemini", "openai", "pinecone", "langchain",
   "machine learning", "deep learning", "nlp", "data science",
   "data analysis", "cloud computing", "devops", "agile",
   "oop", "oops", "etl", "computer vision", "rag"]

/-- Word bounded search of a literal, the pattern built from re.escape of a
word wrapped in two word boundaries. -/
def boundedHas (needle : String) (l : List Char) : Bool :=
  (reFind? (mLit needle) true true l).isSome

/-- The header alternation of the technology extraction pattern of
_extract_tech_from_line, together with the separator run before the
trailing captured group. -/
def techHeadPat : Matches :=
  mSeq
    (mAlts
      [mSeqs [mLitI "tech", mOpt (mLitI "nologies"),
              mOpt (mSeqs [mPlusCls isPySpace, mLitI "used"])],
       mSeqs [mLitI "built", mPlusCls isPySpace, mLitI "with"],
       mLitI "stack"])
    (mStarCls (fun c => c == ':' || isPySpace c))

/-- The pattern stripping the connector words inside a technology segment,
backslash b (and|or|with) backslash b. -/
def andOrWithPat : Matches := mAlts [mLit "and", mLit "or", mLit "with"]

/-- ResumeParser._extract_tech_from_line: when the technology header pattern
matches, the trailing group is split on commas, each segment is stripped,
lowercased and cleared of connector words, and every known skill found in a
segment (word bounded for short entries, substring otherwise) is appended to
the accumulator list. -/
def extract_tech_from_line (line : String) (tech_list : List String) :
    List String :=
  match reFindPost? techHeadPat (fun rest => rest.head?.any (· != '\n'))
      line.data with
  | none => tech_list
  | some f =>
    let tech_string := f.post.takeWhile (· ≠ '\n')
    let techs := splitClAux (· == ',') [] tech_string
    techs.foldl
      (fun acc tech =>
        let tech_clean := stripL (reSubAll andOrWithPat true true []
          (lowerL (stripL tech)))
        known_skills.foldl
          (fun acc2 ks =>
            if ks.length ≤ 3 then
              if boundedHas ks tech_clean then acc2 ++ [ks] else acc2
            else if hasSubL tech_clean ks.data then acc2 ++ [ks]
            else acc2)
          acc)
      tech_list

/-- The section labels of split_into_sections. -/
inductive SectionName where
  | education | experience | projects | skills | achievements | raw_text
deriving DecidableEq, Repr

/-- The section buckets, including the technology side channel filled while
walking the projects section. -/
structure Sections where
  education : List String
  experience : List String
  projects : List String
  skills : List String
  achievements : List String
  project_technologies : List String
  raw_text : List String
deriving Repr, DecidableEq

/-- The empty buckets. -/
def Sections.empty : Sections := ⟨[], [], [], [], [], [], []⟩

/-- The section_patterns test for one header family: each pattern is a word
bounded alternation, so a family matches when some listed word occurs word
bounded (an optional plural s in the source pattern is expanded into both
explicit forms). -/
def sectionOf (line_lower : List Char) : Option SectionName :=
  if ["education", "academic", "qualification"].any (boundedHas · line_lower) then
    some .education
  else if ["experience", "work", "employment", "internship"].any
      (boundedHas · line_lower) then
    some .experience
  else if ["projects", "project", "portfolio"].any (boundedHas · line_lower) then
    some .projects
  else if ["skills", "skill", "technical", "technologies", "competencies"].any
      (boundedHas · line_lower) then
    some .skills
  else if ["achievements", "achievement", "certifications", "certification",
      "awards", "award"].any (boundedHas · line_lower) then
    some .achievements
  else none

/-- Append a line to the bucket of the current section, and in the projects
section also run the technology extraction on it. -/
def addToSection (s : Sections) (sec : SectionName) (line : String) : Sections :=
  match sec with
  | .education => { s with education := s.education ++ [line] }
  | .experience => { s with experience := s.experience ++ [line] }
  | .projects =>
    { s with
      projects := s.projects ++ [line]
      project_technologies := extract_tech_from_line line s.project_technologies }
  | .skills => { s with skills := s.skills ++ [line] }
  | .achievements => { s with achievements := s.achievements ++ [line] }
  | .raw_text => { s with raw_text := s.raw_text ++ [line] }

/-- ResumeParser.split_into_sections: walk the lines, switch the current
section at a short header line, append other lines to the current bucket. -/
def split_into_sections (text : String) : Sections :=
  ((splitNl text).foldl
    (fun st line =>
      let line_stripped := pyStrip line
      if line_stripped = "" then st
      else
        let line_lower := pyLower line_stripped
        match
          if line_stripped.length < 50 then sectionOf line_lower.data
          else none with
        | some sec => (st.1, sec)
        | none => (addToSection st.1 st.2 line_stripped, st.2))
    (Sections.empty, SectionName.raw_text)).1

/-- The category label pattern stripped from a delimiter separated segment
in extract_skills. -/
def catLabelPat : Matches :=
  mSeq
    (mAlts [mLit "languages", mLit "frameworks", mLit "tools",
            mLit "databases", mLit "cloud"])
    (mStarCls isPySpace)

/-- The anchored re.sub removing a leading category label: the anchor limits
the replacement to the start of the segment. -/
def stripCategoryLabel (l : List Char) : List Char :=
  match (catLabelPat l).head? with
  | some pr => pr.2
  | none => l

/-- Set semantics insertion into the growing skill collection, modelling
set.add of the source. -/
def addSkill (skills : List String) (x : String) : List String :=
  if x ∈ skills then skills else skills ++ [x]

/-- The additions contributed by one skill section line: the dictionary pass
(word bounded match for entries of length at most 3, substring match
otherwise), then the delimiter pass over the segments of the line. -/
def lineAdds (line : String) : List String :=
  let line_lower := pyLower line
  let dictAdds :=
    (known_skills.filter (fun skill =>
      if skill.length ≤ 3 then boundedHas skill line_lower.data
      else pySub skill line_lower)).map pyTitle
  let delimAdds :=
    if [',', '•', '·', '-', ':'].any (fun c => line.data.contains c) then
      (splitClAux
        (fun c => c == ',' || c == '•' || c == '·' || c == ':' || c == '-')
        [] line.data).filterMap
        (fun part =>
          let part_clean : String := ⟨stripCategoryLabel (lowerL (stripL part))⟩
          if part_clean ∈ known_skills ∧ part_clean.length > 2 then
            some (pyTitle ⟨stripL part⟩)
          else none)
    else []
  dictAdds ++ delimAdds

/-- The full document fallback additions, used only when the first passes
found nothing. -/
def fallbackAdds (full_text : String) : List String :=
  (known_skills.filter (fun skill => pySub skill (pyLower full_text))).map pyTitle

/-- ResumeParser.extract_skills: union of the skill section pass, the
project technology pass and, only when those produced nothing, the full
text fallback scan; the set is returned sorted. -/
def extract_skills (skill_lines : List String) (project_techs : List String)
    (full_text : String) : List String :=
  let base := ((skill_lines.flatMap lineAdds)
    ++ project_techs.map pyTitle).foldl addSkill []
  let withFallback :=
    if base.isEmpty then (fallbackAdds full_text).foldl addSkill base else base
  List.insertionSort pyStrLe withFallback

/-! ### Education extraction -/

/-- An education record, modelled as the Python dict it is in the source: an
association list of present keys, so that a key that was never detected is
genuinely absent rather than bound to a null. -/
abbrev EduRec := List (String × String)

/-- Key presence in a record, the Python expression k in d. -/
def hasKey : EduRec → String → Bool
  | [], _ => false
  | p :: r, k => p.1 == k || hasKey r k

/-- Dict assignment d[k] = v: overwrite in place, else append a new key. -/
def setKey : EduRec → String → String → EduRec
  | [], k, v => [(k, v)]
  | p :: r, k, v => if p.1 == k then (k, v) :: r else p :: setKey r k v

/-- The high school indicator tokens. -/
def school_indicators : List String :=
  ["xii", "12th", "hsc", "higher secondary", "junior college",
   "senior secondary", "intermediate", "pre-university"]

/-- The institution keywords. -/
def college_keywords : List String :=
  ["institute", "university", "college", "academy"]

/-- The word bounded degree pattern, alternatives in source order. -/
def degreePatB : Matches :=
  mAlts
    [mSeqs [mLitI "b", mOpt (mCls (· == '.')), mStarCls isPySpace, mLitI "tech"],
     mLitI "bachelor",
     mSeqs [mLitI "b", mOpt (mCls (· == '.')), mStarCls isPySpace, mLitI "e",
            mOpt (mCls (· == '.'))],
     mSeqs [mLitI "m", mOpt (mCls (· == '.')), mStarCls isPySpace, mLitI "tech"],
     mLitI "master", mLitI "mba", mLitI "bca", mLitI "mca", mLitI "phd"]

/-- The fallback degree pattern without word boundaries, for concatenated
text, alternatives in source order. -/
def degreePatNB : Matches :=
  mAlts
    [mSeqs [mLitI "b", mOpt (mCls (· == '.')), mLitI "tech"],
     mLitI "btech", mLitI "b-tech", mLitI "bachelor",
     mSeqs [mLitI "b", mOpt (mCls (· == '.')), mLitI "e", mOpt (mCls (· == '.'))],
     mSeqs [mLitI "m", mOpt (mCls (· == '.')), mLitI "tech"],
     mLitI "mtech", mLitI "master", mLitI "mba", mLitI "bca", mLitI "mca",
     mLitI "phd"]

/-- The degree search of extract_education: the word bounded pattern first,
then the fallback pattern; the result is the matched text. -/
def degreeMatch? (line : String) : Option (List Char) :=
  match reFind? degreePatB true true line.data with
  | some f => some f.grp
  | none => (reFind? degreePatNB false false line.data).map (·.grp)

/-- The specialization pattern; the second alternative transcribes the
parenthesised group of the source, which as plain text collapses to the
concatenation of its pieces, and is unreachable because the first
alternative matches any text it would match. -/
def specPat : Matches :=
  mAlts
    [mLitI "computer science",
     mLitI "computer science and engineering data science",
     mLitI "information technology", mLitI "data science",
     mLitI "electronics", mLitI "mechanical", mLitI "electrical",
     mLitI "civil", mLitI "computer engineering"]

/-- The institution name pattern: a letter, a greedy run of letters, spaces
and dots, one institution keyword, then a greedy trailing run. -/
def collegePat : Matches :=
  mSeqs
    [mCls isAsciiAlpha,
     mPlusCls (fun c => isAsciiAlpha c || isPySpace c || c == '.'),
     mAlts [mLitI "institute", mLitI "university", mLitI "college",
            mLitI "academy"],
     mStarCls (fun c => isAsciiAlpha c || isPySpace c || c == ',' || c == '.')]

/-- Word bounded four digit year of either century, used when cleaning an
institution name. -/
def yearEitherPat : Matches :=
  mAlts [mSeqs [mLit "20", mRep isAsciiDigit 2],
         mSeqs [mLit "19", mRep isAsciiDigit 2]]

/-- The month name year fragment pattern removed from institution names. -/
def monthYearPat : Matches :=
  mSeqs
    [mAlts (["jan", "feb", "mar", "apr", "may", "jun", "jul", "aug", "sep",
             "oct", "nov", "dec"].map mLitI),
     mStarCls isAsciiAlpha, mStarCls isPySpace, mRep isAsciiDigit 4]

/-- The trailing present or current range pattern removed from institution
names. -/
def dashPresentPat : Matches :=
  mSeqs
    [mCls (fun c => c == '–' || c == '—' || c == '-'),
     mStarCls isPySpace,
     mAlts [mLitI "present", mLitI "current"],
     mStarCls (· ≠ '\n'), mEnd]

/-- Whitespace run, collapsed to one space while cleaning. -/
def wsRunPat : Matches := mPlusCls isPySpace

/-- A trailing comma with trailing whitespace. -/
def commaEndPat : Matches := mSeqs [mCls (· == ','), mStarCls isPySpace, mEnd]

/-- The institution extraction and cleanup of extract_education. -/
def collegeName? (line : String) : Option String :=
  (reFind? collegePat false false line.data).map (fun f =>
    let n0 := stripL f.grp
    let n1 := reSubAll yearEitherPat true true [] n0
    let n2 := reSubAll monthYearPat false false [] n1
    let n3 := reSubAll dashPresentPat false false [] n2
    let n4 := stripL (reSubAll wsRunPat false false [' '] n3)
    let n5 := stripL (reSubAll commaEndPat false false [] n4)
    (⟨n5⟩ : String))

/-- Word bounded graduation year pattern of the findall in the line loop. -/
def year20Pat : Matches := mSeqs [mLit "20", mRep isAsciiDigit 2]

/-- The cgpa prefix pattern, up to the captured numeric group. -/
def cgpaHeadPat : Matches :=
  mSeqs [mLit "cgpa", mStarCls (fun c => c == ':' || c == '-' || isPySpace c)]

/-- The cgpa search on the lowercased line, returning the numeric group. -/
def cgpa? (line_lower : String) : Option String :=
  (reFindPost? cgpaHeadPat
    (fun rest => rest.head?.any (fun c => isAsciiDigit c || c == '.'))
    line_lower.data).map
    (fun f => (⟨f.post.takeWhile (fun c => isAsciiDigit c || c == '.')⟩ : String))

/-- The loop state of extract_education: the emitted records and the open
accumulator current_edu. -/
structure EduState where
  out : List EduRec
  cur : EduRec
deriving Repr, DecidableEq

/-- Flush the accumulator when it has a course, as the source does before
starting a new record and at the end of input. -/
def flushIfCourse (st : EduState) : EduState :=
  if hasKey st.cur "course" then ⟨st.out ++ [st.cur], []⟩ else st

/-- The course text set when a degree matched: degree in specialization when
a specialization also matched on the line, else the degree alone, title
cased. -/
def courseText (line : String) (grp : List Char) : String :=
  let degree : String := ⟨stripL grp⟩
  match reFind? specPat false false line.data with
  | some sf => pyTitle (degree ++ " in " ++ (⟨stripL sf.grp⟩ : String))
  | none => pyTitle degree

/-- The degree handling of one line: on a degree match, flush a completed
accumulator and set the course of the fresh one. -/
def degreeStep (line : String) (st : EduState) : EduState :=
  match degreeMatch? line with
  | some grp =>
    let st' := flushIfCourse st
    ⟨st'.out, setKey st'.cur "course" (courseText line grp)⟩
  | none => st

/-- The institution handling of one line. -/
def collegeStep (line line_lower : String) (st : EduState) : EduState :=
  if college_keywords.any (fun kw => pySub kw line_lower)
      ∧ ¬ hasKey st.cur "college" then
    match collegeName? line with
    | some nm => ⟨st.out, setKey st.cur "college" nm⟩
    | none => st
  else st

/-- The graduation year handling of one line: the last word bounded 20xx
token, kept only when no year was recorded yet. -/
def yearStep (line : String) (st : EduState) : EduState :=
  if reFindAll year20Pat true true line.data ≠ []
      ∧ ¬ hasKey st.cur "graduation_year" then
    ⟨st.out, setKey st.cur "graduation_year"
      (⟨(reFindAll year20Pat true true line.data).getLastD []⟩ : String)⟩
  else st

/-- The cgpa handling of one line; a later cgpa line overwrites. -/
def cgpaStep (line_lower : String) (st : EduState) : EduState :=
  match cgpa? line_lower with
  | some v => ⟨st.out, setKey st.cur "cgpa" v⟩
  | none => st

/-- One line of the extract_education loop: skip blank lines, flush on a
high school indicator line, otherwise run the degree, institution, year and
cgpa handlers in source order (line is the stripped line, line_lower its
lowercasing). -/
def eduStep (st : EduState) (rawLine : String) : EduState :=
  if pyStrip rawLine = "" then st
  else if school_indicators.any
      (fun ind => pySub ind (pyLower (pyStrip rawLine))) then
    flushIfCourse st
  else
    cgpaStep (pyLower (pyStrip rawLine))
      (yearStep (pyStrip rawLine)
        (collegeStep (pyStrip rawLine) (pyLower (pyStrip rawLine))
          (degreeStep (pyStrip rawLine) st)))

/-- ResumeParser.extract_education: the per line state machine followed by
the final flush. -/
def extract_education (edu_lines : List String) : List EduRec :=
  (flushIfCourse (edu_lines.foldl eduStep ⟨[], []⟩)).out

/-- The four keys an education record can carry. -/
def eduKeys : List String := ["course", "college", "graduation_year", "cgpa"]

/-- A well formed emitted record: it carries a course and only the four
known keys. -/
def RecOk (r : EduRec) : Prop :=
  hasKey r "course" = true ∧ ∀ k ∈ r.map Prod.fst, k ∈ eduKeys

/-- The loop invariant of extract_education: every emitted record is well
formed and the open accumulator uses only the four known keys. -/
def StOk (st : EduState) : Prop :=
  (∀ r ∈ st.out, RecOk r) ∧ ∀ k ∈ st.cur.map Prod.fst, k ∈ eduKeys

/-! ### Basic info extraction -/

/-- The result of extract_basic_info. -/
structure BasicInfo where
  name : Option String
  email : Option String
  phone : Option String
deriving Repr, DecidableEq

/-- The email search: the pattern nonspace plus, at sign, nonspace plus
matches exactly the whitespace delimited tokens carrying an at sign at an
interior position, and returns the whole token. -/
def email? (text : String) : Option String :=
  (pyWords text).find? (fun w => (w.data.drop 1).dropLast.contains '@')

/-- The separator class of the first phone pattern. -/
def phoneSep (c : Char) : Bool := c == '-' || c == '.' || isPySpace c

/-- The first phone pattern of the source. -/
def phonePat1 : Matches :=
  mSeqs
    [mOpt (mCls (· == '+')), mRepRange isAsciiDigit 1 3, mOpt (mCls phoneSep),
     mOpt (mCls (· == '(')), mRep isAsciiDigit 3, mOpt (mCls (· == ')')),
     mOpt (mCls phoneSep), mRep isAsciiDigit 3, mOpt (mCls phoneSep),
     mRep isAsciiDigit 4]

/-- The second phone pattern: ten digits, word bounded. -/
def phonePat2 : Matches := mRep isAsciiDigit 10

/-- The third phone pattern: plus, two digits, optional space, ten digits. -/
def phonePat3 : Matches :=
  mSeqs [mCls (· == '+'), mRep isAsciiDigit 2, mOpt (mCls isPySpace),
         mRep isAsciiDigit 10]

/-- The phone search: the three patterns in order, first match wins,
stripped. -/
def phone? (text : String) : Option String :=
  match reFind? phonePat1 false false text.data with
  | some f => some (pyStrip ⟨f.grp⟩)
  | none =>
    match reFind? phonePat2 true true text.data with
    | some f => some (pyStrip ⟨f.grp⟩)
    | none => (reFind? phonePat3 false false text.data).map
        (fun f => pyStrip ⟨f.grp⟩)

/-- The per word test of the name heuristic: the word with dots removed is
nonempty and alphabetic. -/
def nameWordOk (w : String) : Bool :=
  let l := w.data.filter (· ≠ '.')
  !l.isEmpty && l.all isAsciiAlpha

/-- ResumeParser.extract_basic_info. -/
def extract_basic_info (text : String) : BasicInfo :=
  let lines := ((splitNl text).map pyStrip).filter (· ≠ "")
  let email := email? text
  let phone := phone? text
  let nm := (lines.take 5).find? (fun line =>
    !(match email with | some e => pySub e line | none => false)
    && !(match phone with | some p => pySub p line | none => false)
    && !(["resume", "cv", "curriculum"].any
          (fun w => boundedHas w (pyLower line).data))
    && (let ws := pyWords line
        (decide (2 ≤ ws.length) && decide (ws.length ≤ 4) && ws.all nameWordOk)
        || (ws.length == 1
            && (ws.headD "").data.all isAsciiAlpha
            && !(ws.headD "").data.isEmpty
            && decide ((ws.headD "").length > 2))))
  ⟨nm, email, phone⟩

/-! ### parse_text -/

/-- The values appearing in the dictionary returned by parse_text. -/
inductive PyVal where
  | none
  | str (s : String)
  | strList (l : List String)
  | eduList (l : List EduRec)
deriving Repr, DecidableEq

/-- An optional string as a dictionary value. -/
def optVal : Option String → PyVal
  | Option.none => .none
  | some s => .str s

/-- ResumeParser.parse_text, as the key value pairs of the returned
dictionary in source order. -/
def parse_text (text : String) : List (String × PyVal) :=
  let basic_info := extract_basic_info text
  let sections := split_into_sections text
  [("name", optVal basic_info.name),
   ("email", optVal basic_info.email),
   ("phone", optVal basic_info.phone),
   ("skills", .strList (extract_skills sections.skills
      sections.project_technologies text)),
   ("education", .eduList (extract_education sections.education)),
   ("sentences", .strList (if text == "" then []
      else splitCl (fun c => c == '.' || c == '\n' || c == '•') text))]

end Parse

/-! ## General lemmas -/

theorem toNat_ofNat_valid {m : ℕ} (h : m < 55296) : (Char.ofNat m).toNat = m := by
  have hv : m.isValidChar := Or.inl h
  simp only [Char.ofNat, dif_pos hv, Char.ofNatAux, Char.toNat, UInt32.toNat]
  rfl

theorem lowChar_toNat (c : Char) :
    (lowChar c).toNat =
      if 65 ≤ c.toNat ∧ c.toNat ≤ 90 then c.toNat + 32 else c.toNat := by
  unfold lowChar
  by_cases h : 65 ≤ c.toNat ∧ c.toNat ≤ 90
  · rw [if_pos h, if_pos h, toNat_ofNat_valid (by omega)]
  · rw [if_neg h, if_neg h]

theorem upChar_toNat (c : Char) :
    (upChar c).toNat =
      if 97 ≤ c.toNat ∧ c.toNat ≤ 122 then c.toNat - 32 else c.toNat := by
  unfold upChar
  by_cases h : 97 ≤ c.toNat ∧ c.toNat ≤ 122
  · rw [if_pos h, if_pos h, toNat_ofNat_valid (by omega)]
  · rw [if_neg h, if_neg h]

theorem isAsciiAlpha_eq_true {c : Char} :
    isAsciiAlpha c = true ↔
      (65 ≤ c.toNat ∧ c.toNat ≤ 90) ∨ (97 ≤ c.toNat ∧ c.toNat ≤ 122) := by
  simp [isAsciiAlpha]

theorem isAsciiAlpha_lowChar (c : Char) :
    isAsciiAlpha (lowChar c) = isAsciiAlpha c := by
  have h := lowChar_toNat c
  rw [Bool.eq_iff_iff, isAsciiAlpha_eq_true, isAsciiAlpha_eq_true, h]
  by_cases hc : 65 ≤ c.toNat ∧ c.toNat ≤ 90
  · rw [if_pos hc]; omega
  · rw [if_neg hc]

theorem isAsciiAlpha_upChar (c : Char) :
    isAsciiAlpha (upChar c) = isAsciiAlpha c := by
  have h := upChar_toNat c
  rw [Bool.eq_iff_iff, isAsciiAlpha_eq_true, isAsciiAlpha_eq_true, h]
  by_cases hc : 97 ≤ c.toNat ∧ c.toNat ≤ 122
  · rw [if_pos hc]; omega
  · rw [if_neg hc]

theorem lowChar_lowChar (c : Char) : lowChar (lowChar c) = lowChar c := by
  conv_lhs => rw [lowChar]
  have h := lowChar_toNat c
  by_cases hc : 65 ≤ c.toNat ∧ c.toNat ≤ 90
  · rw [if_pos hc] at h
    rw [if_neg (by omega)]
  · rw [if_neg hc] at h
    have hc2 : ¬ (65 ≤ (lowChar c).toNat ∧ (lowChar c).toNat ≤ 90) := by
      rw [h]; exact hc
    rw [if_neg hc2]

theorem upChar_upChar (c : Char) : upChar (upChar c) = upChar c := by
  conv_lhs => rw [upChar]
  have h := upChar_toNat c
  by_cases hc : 97 ≤ c.toNat ∧ c.toNat ≤ 122
  · rw [if_pos hc] at h
    rw [if_neg (by omega)]
  · rw [if_neg hc] at h
    have hc2 : ¬ (97 ≤ (upChar c).toNat ∧ (upChar c).toNat ≤ 122) := by
      rw [h]; exact hc
    rw [if_neg hc2]

theorem titleAux_idem : ∀ (b : Bool) (l : List Char),
    titleAux b (titleAux b l) = titleAux b l := by
  intro b l
  induction l generalizing b with
  | nil => rfl
  | cons c r ih =>
    by_cases hc : isAsciiAlpha c = true
    · cases b with
      | false =>
        simp only [titleAux, hc, if_true, Bool.false_eq_true, if_false,
          isAsciiAlpha_upChar, upChar_upChar, ih true]
      | true =>
        simp only [titleAux, hc, if_true, isAsciiAlpha_lowChar,
          lowChar_lowChar, ih true]
    · simp only [titleAux, hc, Bool.false_eq_true, if_false, ih false]

theorem pyTitle_idem (s : String) : pyTitle (pyTitle s) = pyTitle s := by
  unfold pyTitle
  exact congrArg String.mk (titleAux_idem false s.data)

theorem strLeB_total : ∀ a b : List Char, strLeB a b = true ∨ strLeB b a = true := by
  intro a
  induction a with
  | nil => intro b; left; rfl
  | cons c r ih =>
    intro b
    cases b with
    | nil => right; rfl
    | cons d t =>
      simp only [strLeB]
      rcases Nat.lt_trichotomy c.toNat d.toNat with h | h | h
      · left; rw [if_pos h]
      · rw [if_neg (by omega), if_neg (by omega), if_neg (by omega),
          if_neg (by omega)]
        exact ih t
      · right; rw [if_pos h]

theorem strLeB_trans : ∀ a b c : List Char,
    strLeB a b = true → strLeB b c = true → strLeB a c = true := by
  intro a
  induction a with
  | nil => intro b c _ _; rfl
  | cons x r ih =>
    intro b c hab hbc
    cases b with
    | nil => simp [strLeB] at hab
    | cons y s =>
      cases c with
      | nil => simp [strLeB] at hbc
      | cons z t =>
        simp only [strLeB] at hab hbc ⊢
        by_cases h1 : x.toNat < y.toNat
        · by_cases h2 : y.toNat < z.toNat
          · rw [if_pos (by omega)]
          · rw [if_pos h1] at hab
            by_cases h3 : z.toNat < y.toNat
            · rw [if_neg h2, if_pos h3] at hbc; exact absurd hbc (by simp)
            · rw [if_pos (by omega)]
        · by_cases h1' : y.toNat < x.toNat
          · rw [if_neg h1, if_pos h1'] at hab; exact absurd hab (by simp)
          · by_cases h2 : y.toNat < z.toNat
            · rw [if_pos (by omega)]
            · by_cases h3 : z.toNat < y.toNat
              · rw [if_neg h2, if_pos h3] at hbc; exact absurd hbc (by simp)
              · rw [if_neg h1, if_neg h1'] at hab
                rw [if_neg h2, if_neg h3] at hbc
                rw [if_neg (by omega), if_neg (by omega)]
                exact ih s t hab hbc

instance : IsTotal String pyStrLe := ⟨fun a b => strLeB_total a.data b.data⟩

instance : IsTrans String pyStrLe :=
  ⟨fun a b c hab hbc => strLeB_trans a.data b.data c.data hab hbc⟩

namespace Scorer

theorem round2_mono {a b : ℚ} (h : a ≤ b) : round2 a ≤ round2 b := by
  unfold round2
  have hr : round (a * 100) ≤ round (b * 100) := by
    rw [round_eq, round_eq]
    exact Int.floor_mono (by linarith)
  have hr' : ((round (a * 100) : ℤ) : ℚ) ≤ ((round (b * 100) : ℤ) : ℚ) := by
    exact_mod_cast hr
  gcongr

theorem round2_zero : round2 0 = 0 := by
  norm_num [round2]

theorem round2_130 : round2 130 = 130 := by
  have h : ((130 : ℚ) * 100) = ((13000 : ℤ) : ℚ) := by norm_num
  rw [round2, h, round_intCast]
  norm_num

theorem contribution_nonneg (model : Option EmbedModel) (rset : List String)
    (sentences : List String) {w : ℚ} (hw : 0 ≤ w) (t : String) :
    0 ≤ contribution model rset sentences w t := by
  unfold contribution
  cases hc : classify model rset sentences t with
  | exact ctx =>
    by_cases hb : ctx.contextual <;> simp [hb] <;> nlinarith
  | semantic sem => simp; nlinarith
  | missing => simp

theorem contribution_le (model : Option EmbedModel) (rset : List String)
    (sentences : List String) {w : ℚ} (hw : 0 ≤ w) (t : String) :
    contribution model rset sentences w t ≤ w * (13/10) := by
  unfold contribution
  cases hc : classify model rset sentences t with
  | exact ctx =>
    by_cases hb : ctx.contextual <;> simp [hb] <;> nlinarith
  | semantic sem => simp; nlinarith
  | missing => simp; nlinarith

theorem currentScore_nonneg (model : Option EmbedModel) (rs : List String)
    (jd : JdData) (sents : List String) : 0 ≤ currentScore model rs jd sents := by
  unfold currentScore
  have h1 : 0 ≤ ((mustTargets jd).map
      (contribution model (resumeSkillsSet rs) sents 1)).sum := by
    apply List.sum_nonneg
    intro x hx
    obtain ⟨a, _, rfl⟩ := List.mem_map.mp hx
    exact contribution_nonneg _ _ _ (by norm_num) _
  have h2 : 0 ≤ ((goodTargets jd).map
      (contribution model (resumeSkillsSet rs) sents (1/2))).sum := by
    apply List.sum_nonneg
    intro x hx
    obtain ⟨a, _, rfl⟩ := List.mem_map.mp hx
    exact contribution_nonneg _ _ _ (by norm_num) _
  linarith

theorem currentScore_le (model : Option EmbedModel) (rs : List String)
    (jd : JdData) (sents : List String) :
    currentScore model rs jd sents ≤ 13/10 * totalPossible jd := by
  unfold currentScore totalPossible
  have h1 : ((mustTargets jd).map
      (contribution model (resumeSkillsSet rs) sents 1)).sum
      ≤ ((mustTargets jd).map
        (contribution model (resumeSkillsSet rs) sents 1)).length • ((1 : ℚ) * (13/10)) := by
    apply List.sum_le_card_nsmul
    intro x hx
    obtain ⟨a, _, rfl⟩ := List.mem_map.mp hx
    exact contribution_le _ _ _ (by norm_num) _
  have h2 : ((goodTargets jd).map
      (contribution model (resumeSkillsSet rs) sents (1/2))).sum
      ≤ ((goodTargets jd).map
        (contribution model (resumeSkillsSet rs) sents (1/2))).length • ((1/2 : ℚ) * (13/10)) := by
    apply List.sum_le_card_nsmul
    intro x hx
    obtain ⟨a, _, rfl⟩ := List.mem_map.mp hx
    exact contribution_le _ _ _ (by norm_num) _
  rw [List.length_map] at h1 h2
  rw [nsmul_eq_mul] at h1 h2
  nlinarith [h1, h2]

theorem totalPossible_nonneg (jd : JdData) : 0 ≤ totalPossible jd := by
  unfold totalPossible
  positivity

theorem rawScore_nonneg (model : Option EmbedModel) (rs : List String)
    (jd : JdData) (sents : List String) : 0 ≤ rawScore model rs jd sents := by
  unfold rawScore
  split
  · exact le_refl 0
  · rename_i h
    have ht : 0 < totalPossible jd := lt_of_le_of_ne (totalPossible_nonneg jd)
      (Ne.symm h)
    have hc := currentScore_nonneg model rs jd sents
    positivity

theorem rawScore_le_130 (model : Option EmbedModel) (rs : List String)
    (jd : JdData) (sents : List String) : rawScore model rs jd sents ≤ 130 := by
  unfold rawScore
  split
  · norm_num
  · rename_i h
    have ht : 0 < totalPossible jd := lt_of_le_of_ne (totalPossible_nonneg jd)
      (Ne.symm h)
    rw [div_mul_eq_mul_div, div_le_iff₀ ht]
    nlinarith [currentScore_le model rs jd sents]

theorem finalScore_nonneg (model : Option EmbedModel) (rs : List String)
    (jd : JdData) (sents : List String) : 0 ≤ finalScore model rs jd sents := by
  unfold finalScore
  have h := rawScore_nonneg model rs jd sents
  split <;> nlinarith

theorem finalScore_le_130 (model : Option EmbedModel) (rs : List String)
    (jd : JdData) (sents : List String) : finalScore model rs jd sents ≤ 130 := by
  unfold finalScore
  have h0 := rawScore_nonneg model rs jd sents
  have h1 := rawScore_le_130 model rs jd sents
  split <;> nlinarith

theorem resumeSkillsSet_append (rs : List String) (s : String) :
    resumeSkillsSet (rs ++ [s]) = resumeSkillsSet rs ++ [normalize_skill s] := by
  simp [resumeSkillsSet]

theorem classify_append_eq_missing {model : Option EmbedModel}
    {rset : List String} {y : String} {sents : List String} {t : String}
    (h : classify model (rset ++ [y]) sents t = .missing) :
    classify model rset sents t = .missing := by
  unfold classify at h ⊢
  by_cases h1 : normalize_skill t ∈ rset
  · rw [if_pos (List.mem_append_left _ h1)] at h
    exact absurd h (by simp)
  · rw [if_neg h1]
    by_cases h2 : normalize_skill t ∈ rset ++ [y]
    · rw [if_pos h2] at h
      exact absurd h (by simp)
    · rw [if_neg h2] at h
      exact h

theorem contribution_append_mono (model : Option EmbedModel)
    (rset : List String) (y : String) (sents : List String) {w : ℚ}
    (hw : 0 ≤ w) (t : String) :
    contribution model rset sents w t ≤ contribution model (rset ++ [y]) sents w t := by
  unfold contribution classify
  by_cases h1 : normalize_skill t ∈ rset
  · rw [if_pos h1, if_pos (List.mem_append_left _ h1)]
  · by_cases h2 : normalize_skill t ∈ rset ++ [y]
    · rw [if_neg h1, if_pos h2]
      have hlow : (w * (3/5) : ℚ) ≤ w * (if (is_contextual t sents).contextual then 1 + 3/10 else 1) := by
        by_cases hb : (is_contextual t sents).contextual <;> simp [hb] <;> nlinarith
      by_cases hf : (find_semantic_match model t sents).found
      · simp only [hf, if_true]
        exact hlow
      · simp only [hf, Bool.false_eq_true, if_false]
        by_cases hb : (is_contextual t sents).contextual <;> simp [hb] <;> nlinarith
    · rw [if_neg h1, if_neg h2]

theorem currentScore_append_mono (model : Option EmbedModel) (rs : List String)
    (s : String) (jd : JdData) (sents : List String) :
    currentScore model rs jd sents ≤ currentScore model (rs ++ [s]) jd sents := by
  unfold currentScore
  rw [resumeSkillsSet_append]
  have h1 : ((mustTargets jd).map
      (contribution model (resumeSkillsSet rs) sents 1)).sum
      ≤ ((mustTargets jd).map
        (contribution model (resumeSkillsSet rs ++ [normalize_skill s]) sents 1)).sum := by
    apply List.sum_le_sum
    intro t _
    exact contribution_append_mono _ _ _ _ (by norm_num) _
  have h2 : ((goodTargets jd).map
      (contribution model (resumeSkillsSet rs) sents (1/2))).sum
      ≤ ((goodTargets jd).map
        (contribution model (resumeSkillsSet rs ++ [normalize_skill s]) sents (1/2))).sum := by
    apply List.sum_le_sum
    intro t _
    exact contribution_append_mono _ _ _ _ (by norm_num) _
  linarith

theorem rawScore_append_mono (model : Option EmbedModel) (rs : List String)
    (s : String) (jd : JdData) (sents : List String) :
    rawScore model rs jd sents ≤ rawScore model (rs ++ [s]) jd sents := by
  unfold rawScore
  split
  · exact le_refl 0
  · rename_i h
    have ht : 0 < totalPossible jd := lt_of_le_of_ne (totalPossible_nonneg jd)
      (Ne.symm h)
    have hc := currentScore_append_mono model rs s jd sents
    gcongr

theorem missing_filter_append {model : Option EmbedModel} {rset : List String}
    {y : String} {sents : List String} (l : List String) (q : String → Bool) :
    (List.filter q (l.filter (fun t =>
        match classify model (rset ++ [y]) sents t with
        | .missing => true
        | _ => false))).length
    ≤ (List.filter q (l.filter (fun t =>
        match classify model rset sents t with
        | .missing => true
        | _ => false))).length := by
  rw [← List.countP_eq_length_filter, ← List.countP_eq_length_filter,
    List.countP_filter, List.countP_filter]
  apply List.countP_mono_left
  intro a _ h
  rw [Bool.and_eq_true] at h ⊢
  refine ⟨h.1, ?_⟩
  have h2 := h.2
  cases hc : classify model (rset ++ [y]) sents a with
  | exact ctx => rw [hc] at h2; exact absurd h2 (by simp)
  | semantic sem => rw [hc] at h2; exact absurd h2 (by simp)
  | missing => rw [classify_append_eq_missing hc]

theorem missingMustCount_append_le (model : Option EmbedModel) (rs : List String)
    (s : String) (jd : JdData) (sents : List String) :
    missingMustCount model (rs ++ [s]) jd sents ≤ missingMustCount model rs jd sents := by
  unfold missingMustCount missingList
  rw [resumeSkillsSet_append]
  simp only [List.filter_append, List.length_append]
  exact Nat.add_le_add
    (missing_filter_append (mustTargets jd) _)
    (missing_filter_append (goodTargets jd) _)

theorem penaltyApplied_append (model : Option EmbedModel) (rs : List String)
    (s : String) (jd : JdData) (sents : List String)
    (h : penaltyApplied model (rs ++ [s]) jd sents = true) :
    penaltyApplied model rs jd sents = true := by
  unfold penaltyApplied at h ⊢
  by_cases hm : mustTargets jd = []
  · rw [if_pos hm] at h
    exact absurd h (by simp)
  · rw [if_neg hm] at h ⊢
    rw [decide_eq_true_eq] at h
    rw [decide_eq_true_eq]
    have hlen : 0 < ((mustTargets jd).length : ℚ) := by
      have : (mustTargets jd).length ≠ 0 := by
        intro h0
        exact hm (List.length_eq_zero.mp h0)
      have : 0 < (mustTargets jd).length := Nat.pos_of_ne_zero this
      exact_mod_cast this
    have hcount : (missingMustCount model (rs ++ [s]) jd sents : ℚ)
        ≤ (missingMustCount model rs jd sents : ℚ) := by
      exact_mod_cast missingMustCount_append_le model rs s jd sents
    calc (2/5 : ℚ) < (missingMustCount model (rs ++ [s]) jd sents : ℚ)
        / ((mustTargets jd).length : ℚ) := h
      _ ≤ (missingMustCount model rs jd sents : ℚ)
        / ((mustTargets jd).length : ℚ) := by gcongr

theorem finalScore_append_mono (model : Option EmbedModel) (rs : List String)
    (s : String) (jd : JdData) (sents : List String) :
    finalScore model rs jd sents ≤ finalScore model (rs ++ [s]) jd sents := by
  unfold finalScore
  have hraw := rawScore_append_mono model rs s jd sents
  have h0 := rawScore_nonneg model rs jd sents
  by_cases hp' : penaltyApplied model (rs ++ [s]) jd sents = true
  · have hp := penaltyApplied_append model rs s jd sents hp'
    rw [if_pos hp, if_pos hp']
    nlinarith
  · rw [if_neg hp']
    by_cases hp : penaltyApplied model rs jd sents = true
    · rw [if_pos hp]
      nlinarith
    · rw [if_neg hp]
      exact hraw

theorem mem_exactList_iff {model : Option EmbedModel} {rs : List String}
    {jd : JdData} {sents : List String} {t : String} :
    t ∈ exactList model rs jd sents ↔
      ((t ∈ mustTargets jd ∨ t ∈ goodTargets jd) ∧
        ∃ c, classify model (resumeSkillsSet rs) sents t = .exact c) := by
  simp only [exactList, List.mem_append, List.mem_filter]
  cases hc : classify model (resumeSkillsSet rs) sents t <;> simp [hc]

theorem mem_missingList_iff {model : Option EmbedModel} {rs : List String}
    {jd : JdData} {sents : List String} {t : String} :
    t ∈ missingList model rs jd sents ↔
      ((t ∈ mustTargets jd ∨ t ∈ goodTargets jd) ∧
        classify model (resumeSkillsSet rs) sents t = .missing) := by
  simp only [missingList, List.mem_append, List.mem_filter]
  cases hc : classify model (resumeSkillsSet rs) sents t <;> simp [hc]

theorem semanticEntry_eq {model : Option EmbedModel} {rset : List String}
    {sents : List String} {a : String} {e : String × Option String × ℚ}
    (hpa : (match classify model rset sents a with
            | SkillOutcome.semantic sem => some (a, sem.evidence, sem.confidence)
            | _ => none) = some e) :
    ∃ sem, classify model rset sents a = .semantic sem
      ∧ e = (a, sem.evidence, sem.confidence) := by
  cases hc : classify model rset sents a with
  | exact ctx => rw [hc] at hpa; simp at hpa
  | missing => rw [hc] at hpa; simp at hpa
  | semantic sem =>
    rw [hc] at hpa
    simp only [Option.some.injEq] at hpa
    exact ⟨sem, rfl, hpa.symm⟩

theorem contextualEntry_eq {model : Option EmbedModel} {rset : List String}
    {sents : List String} {a : String} {e : String × Option String}
    (hpa : (match classify model rset sents a with
            | SkillOutcome.exact ctx =>
              if ctx.contextual = true then some (a, ctx.evidence) else none
            | _ => none) = some e) :
    ∃ ctx, classify model rset sents a = .exact ctx ∧ e = (a, ctx.evidence) := by
  cases hc : classify model rset sents a with
  | semantic sem => rw [hc] at hpa; simp at hpa
  | missing => rw [hc] at hpa; simp at hpa
  | exact ctx =>
    rw [hc] at hpa
    by_cases hb : ctx.contextual = true
    · rw [show (match SkillOutcome.exact ctx with
        | SkillOutcome.exact ctx =>
          if ctx.contextual = true then some (a, ctx.evidence) else none
        | _ => none) = if ctx.contextual = true then some (a, ctx.evidence)
          else none from rfl, if_pos hb] at hpa
      simp only [Option.some.injEq] at hpa
      exact ⟨ctx, rfl, hpa.symm⟩
    · rw [show (match SkillOutcome.exact ctx with
        | SkillOutcome.exact ctx =>
          if ctx.contextual = true then some (a, ctx.evidence) else none
        | _ => none) = if ctx.contextual = true then some (a, ctx.evidence)
          else none from rfl, if_neg hb] at hpa
      simp at hpa

theorem mem_semanticSkills_iff {model : Option EmbedModel} {rs : List String}
    {jd : JdData} {sents : List String} {t : String} :
    t ∈ (semanticList model rs jd sents).map Prod.fst ↔
      ((t ∈ mustTargets jd ∨ t ∈ goodTargets jd) ∧
        ∃ sem, classify model (resumeSkillsSet rs) sents t = .semantic sem) := by
  constructor
  · intro h
    obtain ⟨e, he, rfl⟩ := List.mem_map.mp h
    simp only [semanticList, List.mem_append, List.mem_filterMap] at he
    rcases he with ⟨a, ha, hpa⟩ | ⟨a, ha, hpa⟩ <;>
      obtain ⟨sem, hc, rfl⟩ := semanticEntry_eq hpa
    · exact ⟨Or.inl ha, sem, hc⟩
    · exact ⟨Or.inr ha, sem, hc⟩
  · rintro ⟨hmem, sem, hc⟩
    apply List.mem_map.mpr
    refine ⟨(t, sem.evidence, sem.confidence), ?_, rfl⟩
    simp only [semanticList, List.mem_append, List.mem_filterMap]
    rcases hmem with hm | hm
    · exact Or.inl ⟨t, hm, by rw [hc]⟩
    · exact Or.inr ⟨t, hm, by rw [hc]⟩

theorem mem_contextual_exact {model : Option EmbedModel} {rs : List String}
    {jd : JdData} {sents : List String} {e : String × Option String}
    (he : e ∈ contextualList model rs jd sents) :
    e.1 ∈ exactList model rs jd sents := by
  simp only [contextualList, List.mem_append, List.mem_filterMap] at he
  rcases he with ⟨a, ha, hpa⟩ | ⟨a, ha, hpa⟩ <;>
    obtain ⟨ctx, hc, rfl⟩ := contextualEntry_eq hpa
  · exact mem_exactList_iff.mpr ⟨Or.inl ha, ctx, hc⟩
  · exact mem_exactList_iff.mpr ⟨Or.inr ha, ctx, hc⟩

theorem classify_none_not_semantic (rset : List String) (sents : List String)
    (t : String) (sem : SemResult) :
    classify none rset sents t ≠ .semantic sem := by
  unfold classify
  by_cases h : normalize_skill t ∈ rset
  · rw [if_pos h]; simp
  · rw [if_neg h]
    intro hcon
    simp only [show find_semantic_match none t sents = ⟨false, 0, none⟩ from rfl]
      at hcon
    simp at hcon

/-! ## Claims about the scorer -/

/-- C1 counterexample: on the call with resume skills [python], must have
[python] and the sentence develop python, the returned score is 130, which
is not at most 100: an exact match with the contextual boost contributes 1.3
times the tier weight while total possible counts the weight once. -/
theorem c1_counterexample :
    (score none ["python"] ⟨["python"], []⟩ ["develop python"]).score = 130
    ∧ ¬ (score none ["python"] ⟨["python"], []⟩ ["develop python"]).score ≤ 100 := by
  have hc : classify none (resumeSkillsSet ["python"]) ["develop python"] "python"
      = .exact ⟨true, some "develop python"⟩ := by decide
  have hm : mustTargets ⟨["python"], []⟩ = ["python"] := by decide
  have hg : goodTargets ⟨["python"], []⟩ = [] := by decide
  have h : (score none ["python"] ⟨["python"], []⟩ ["develop python"]).score = 130 := by
    simp only [score, finalScore, rawScore, currentScore, totalPossible,
      penaltyApplied, missingMustCount, missingList, contribution, hm, hg, hc,
      List.map_cons, List.map_nil, List.sum_cons, List.sum_nil, List.filter,
      List.length, round2]
    norm_num [round_eq]
  exact ⟨h, by rw [h]; norm_num⟩

/-- C1 (amended): for every scoring call the returned score lies in the
interval [0, 130]; the upper end 130 is reached when every target is an
exact match with the contextual boost. -/
theorem c1_score_range (model : Option EmbedModel) (rs : List String)
    (jd : JdData) (sents : List String) :
    0 ≤ (score model rs jd sents).score ∧ (score model rs jd sents).score ≤ 130 := by
  constructor
  · have h := round2_mono (finalScore_nonneg model rs jd sents)
    rw [round2_zero] at h
    exact h
  · have h := round2_mono (finalScore_le_130 model rs jd sents)
    rw [round2_130] at h
    exact h

/-- C5: a scoring call whose job description has empty must have and good to
have lists returns score 0, verdict Weak Fit, and all four breakdown lists
empty. -/
theorem c5_empty_jd (model : Option EmbedModel) (rs : List String)
    (sents : List String) :
    (score model rs ⟨[], []⟩ sents).score = 0
    ∧ (score model rs ⟨[], []⟩ sents).verdict = "Weak Fit"
    ∧ (score model rs ⟨[], []⟩ sents).exact = []
    ∧ (score model rs ⟨[], []⟩ sents).contextual = []
    ∧ (score model rs ⟨[], []⟩ sents).semantic = []
    ∧ (score model rs ⟨[], []⟩ sents).missing = [] := by
  have hfs : finalScore model rs ⟨[], []⟩ sents = 0 := by
    simp [finalScore, penaltyApplied, rawScore, totalPossible, mustTargets,
      goodTargets, extract_skills_from_jd]
  refine ⟨?_, ?_, rfl, rfl, rfl, rfl⟩
  · show round2 (finalScore model rs ⟨[], []⟩ sents) = 0
    rw [hfs, round2_zero]
  · show verdictOf (finalScore model rs ⟨[], []⟩ sents) = "Weak Fit"
    rw [hfs]
    norm_num [verdictOf]

/-- C3 counterexample: with seven must have skills, one exact match and no
sentences, the raw score is 100 over 7 and the penalty applies, but the
returned score is the rounded 8.57, not the exact product 100 over 7 times
0.6, because the source rounds the final score to two decimals. -/
theorem c3_counterexample :
    rawScore none ["a"] ⟨["a", "b", "c", "d", "e", "f", "g"], []⟩ [] = 100/7
    ∧ (score none ["a"] ⟨["a", "b", "c", "d", "e", "f", "g"], []⟩ []).score = 857/100
    ∧ (857/100 : ℚ) ≠ (100/7) * (3/5) := by
  have hca : classify none (resumeSkillsSet ["a"]) [] "a" = .exact ⟨false, none⟩ := by
    decide
  have hcb : ∀ t ∈ ["b", "c", "d", "e", "f", "g"],
      classify none (resumeSkillsSet ["a"]) [] t = .missing := by decide
  have hm : mustTargets ⟨["a", "b", "c", "d", "e", "f", "g"], []⟩
      = ["a", "b", "c", "d", "e", "f", "g"] := by decide
  have hg : goodTargets ⟨["a", "b", "c", "d", "e", "f", "g"], []⟩ = [] := by decide
  have hraw : rawScore none ["a"] ⟨["a", "b", "c", "d", "e", "f", "g"], []⟩ [] = 100/7 := by
    simp only [rawScore, currentScore, totalPossible, contribution, hm, hg,
      hca, hcb "b" (by simp), hcb "c" (by simp), hcb "d" (by simp),
      hcb "e" (by simp), hcb "f" (by simp), hcb "g" (by simp),
      List.map_cons, List.map_nil, List.sum_cons, List.sum_nil, List.length]
    norm_num
  refine ⟨hraw, ?_, by norm_num⟩
  show round2 (finalScore none ["a"] ⟨["a", "b", "c", "d", "e", "f", "g"], []⟩ []) = 857/100
  have hpen : penaltyApplied none ["a"] ⟨["a", "b", "c", "d", "e", "f", "g"], []⟩ [] = true := by
    have hcount : missingMustCount none ["a"] ⟨["a", "b", "c", "d", "e", "f", "g"], []⟩ [] = 6 := by
      decide
    rw [penaltyApplied, if_neg (by rw [hm]; simp), hcount, hm]
    norm_num
  rw [finalScore, if_pos hpen, hraw]
  have h : ((100 : ℚ)/7 * (3/5) * 100) = 6000/7 := by norm_num
  rw [round2, h]
  have hfl : round ((6000 : ℚ)/7) = 857 := by
    rw [round_eq]
    rw [show (6000 : ℚ)/7 + 1/2 = 12007/14 by norm_num]
    rw [Int.floor_eq_iff]
    norm_num
  rw [hfl]
  norm_num

/-- C3 (amended): when must have skills exist and the fraction of them
recorded under missing exceeds 0.4, the returned score is the raw score
times 0.6, rounded to two decimals as the source rounds every returned
score. -/
theorem c3_penalty (model : Option EmbedModel) (rs : List String)
    (jd : JdData) (sents : List String)
    (h1 : mustTargets jd ≠ [])
    (h2 : (((mustTargets jd).filter
        (· ∈ (score model rs jd sents).missing)).length : ℚ)
      / ((mustTargets jd).length : ℚ) > 2/5) :
    (score model rs jd sents).score
      = round2 (rawScore model rs jd sents * (3/5)) := by
  classical
  have hmissB : ∀ t, ((match classify model (resumeSkillsSet rs) sents t with
      | SkillOutcome.missing => true
      | _ => false) = true) ↔ classify model (resumeSkillsSet rs) sents t = .missing := by
    intro t
    cases hc : classify model (resumeSkillsSet rs) sents t <;> simp [hc]
  have hfilter : (mustTargets jd).filter
      (fun t => decide (t ∈ (score model rs jd sents).missing))
      = (mustTargets jd).filter (fun t =>
        match classify model (resumeSkillsSet rs) sents t with
        | SkillOutcome.missing => true
        | _ => false) := by
    apply List.filter_congr
    intro x hx
    rw [Bool.eq_iff_iff, decide_eq_true_eq, hmissB x]
    show (x ∈ missingList model rs jd sents) ↔ _
    rw [mem_missingList_iff]
    constructor
    · rintro ⟨_, hc⟩
      exact hc
    · intro hc
      exact ⟨Or.inl hx, hc⟩
  set p : String → Bool := fun t =>
    match classify model (resumeSkillsSet rs) sents t with
    | SkillOutcome.missing => true
    | _ => false with hp
  have hcount : ((mustTargets jd).filter p).length
      ≤ missingMustCount model rs jd sents := by
    have hmm : missingMustCount model rs jd sents
        = (((mustTargets jd).filter p ++ (goodTargets jd).filter p).filter
            (fun t => decide (t ∈ mustTargets jd))).length := rfl
    rw [hmm, List.filter_append, List.length_append]
    have hself : (((mustTargets jd).filter p).filter
        (fun t => decide (t ∈ mustTargets jd))) = (mustTargets jd).filter p := by
      apply List.filter_eq_self.mpr
      intro a ha
      exact decide_eq_true (List.mem_of_mem_filter ha)
    calc ((mustTargets jd).filter p).length
        = (((mustTargets jd).filter p).filter
            (fun t => decide (t ∈ mustTargets jd))).length := by rw [hself]
      _ ≤ _ := Nat.le_add_right _ _
  have hlen : 0 < ((mustTargets jd).length : ℚ) := by
    have hne : (mustTargets jd).length ≠ 0 := fun h0 =>
      h1 (List.length_eq_zero.mp h0)
    exact_mod_cast Nat.pos_of_ne_zero hne
  have hpen : penaltyApplied model rs jd sents = true := by
    rw [penaltyApplied, if_neg h1, decide_eq_true_eq]
    have hc2 : (((mustTargets jd).filter p).length : ℚ)
        / ((mustTargets jd).length : ℚ) > 2/5 := by
      rw [← hfilter]
      exact h2
    have hcast : (((mustTargets jd).filter p).length : ℚ)
        ≤ (missingMustCount model rs jd sents : ℚ) := by exact_mod_cast hcount
    calc (2/5 : ℚ) < (((mustTargets jd).filter p).length : ℚ)
        / ((mustTargets jd).length : ℚ) := hc2
      _ ≤ (missingMustCount model rs jd sents : ℚ)
        / ((mustTargets jd).length : ℚ) := by gcongr
  show round2 (finalScore model rs jd sents) = _
  rw [finalScore, if_pos hpen]

/-- C3 witness: the amended penalty equation at the concrete counterexample
input. -/
theorem c3_witness :
    mustTargets ⟨["a", "b", "c", "d", "e", "f", "g"], []⟩ ≠ []
    ∧ (((mustTargets ⟨["a", "b", "c", "d", "e", "f", "g"], []⟩).filter
        (· ∈ (score none ["a"] ⟨["a", "b", "c", "d", "e", "f", "g"], []⟩ []).missing)).length : ℚ)
      / ((mustTargets ⟨["a", "b", "c", "d", "e", "f", "g"], []⟩).length : ℚ) > 2/5
    ∧ (score none ["a"] ⟨["a", "b", "c", "d", "e", "f", "g"], []⟩ []).score
      = round2 (rawScore none ["a"] ⟨["a", "b", "c", "d", "e", "f", "g"], []⟩ [] * (3/5)) := by
  have hfrac : (((mustTargets ⟨["a", "b", "c", "d", "e", "f", "g"], []⟩).filter
      (· ∈ (score none ["a"] ⟨["a", "b", "c", "d", "e", "f", "g"], []⟩ []).missing)).length : ℚ)
      / ((mustTargets ⟨["a", "b", "c", "d", "e", "f", "g"], []⟩).length : ℚ) > 2/5 := by
    rw [show ((mustTargets ⟨["a", "b", "c", "d", "e", "f", "g"], []⟩).filter
      (· ∈ (score none ["a"] ⟨["a", "b", "c", "d", "e", "f", "g"], []⟩ []).missing)).length = 6
      from by decide]
    rw [show (mustTargets ⟨["a", "b", "c", "d", "e", "f", "g"], []⟩).length = 7
      from by decide]
    norm_num
  exact ⟨by decide, hfrac,
    c3_penalty none ["a"] ⟨["a", "b", "c", "d", "e", "f", "g"], []⟩ []
      (by decide) hfrac⟩

/-- C4: extending the resume skills with a skill recorded under missing for
a must have target never decreases the returned score (monotonicity in
fact holds for any appended skill: memberships only grow, each per skill
contribution is monotone, and the penalty can only switch off). -/
theorem c4_monotone (model : Option EmbedModel) (rs : List String)
    (jd : JdData) (sents : List String) (s : String)
    (_hmiss : normalize_skill s ∈ (score model rs jd sents).missing)
    (_hmust : normalize_skill s ∈ mustTargets jd) :
    (score model rs jd sents).score ≤ (score model (rs ++ [s]) jd sents).score :=
  round2_mono (finalScore_append_mono model rs s jd sents)

/-- C4 witness: adding the missing must have skill b to the resume raises
the score from 30 to 100. -/
theorem c4_witness :
    normalize_skill "b" ∈ (score none ["a"] ⟨["a", "b"], []⟩ []).missing
    ∧ normalize_skill "b" ∈ mustTargets ⟨["a", "b"], []⟩
    ∧ (score none ["a"] ⟨["a", "b"], []⟩ []).score
      ≤ (score none (["a"] ++ ["b"]) ⟨["a", "b"], []⟩ []).score :=
  ⟨by decide, by decide,
    c4_monotone none ["a"] ⟨["a", "b"], []⟩ [] "b" (by decide) (by decide)⟩

/-- C6 counterexample: with the model unavailable the contextual boost path
is not disabled: the same lexical contextual check still fires and the
returned score is 130, not the exact match only value 100; only the
semantic recovery path is switched off. -/
theorem c6_counterexample :
    (score none ["python"] ⟨["python"], []⟩ ["deploy python service"]).contextual
      = [("python", some "deploy python service")]
    ∧ (score none ["python"] ⟨["python"], []⟩ ["deploy python service"]).score = 130
    ∧ (130 : ℚ) ≠ 100 := by
  refine ⟨by decide, ?_, by norm_num⟩
  have hc : classify none (resumeSkillsSet ["python"]) ["deploy python service"]
      "python" = .exact ⟨true, some "deploy python service"⟩ := by decide
  have hm : mustTargets ⟨["python"], []⟩ = ["python"] := by decide
  have hg : goodTargets ⟨["python"], []⟩ = [] := by decide
  simp only [score, finalScore, rawScore, currentScore, totalPossible,
    penaltyApplied, missingMustCount, missingList, contribution, hm, hg, hc,
    List.map_cons, List.map_nil, List.sum_cons, List.sum_nil, List.filter,
    List.length, round2]
  norm_num [round_eq]

/-- C6 (amended): when the embedding model is unavailable the semantic
recovery path is disabled, so the semantic breakdown is empty and every
target lands in exact or missing; the contextual boost, a purely lexical
check, is not disabled, and scoring is a total function so no exception
reaches the caller. -/
theorem c6_no_model (rs : List String) (jd : JdData) (sents : List String)
    (t : String) (ht : t ∈ mustTargets jd ++ goodTargets jd) :
    (score none rs jd sents).semantic = []
    ∧ (t ∈ (score none rs jd sents).exact ∨ t ∈ (score none rs jd sents).missing) := by
  constructor
  · show semanticList none rs jd sents = []
    have hnil : ∀ (l : List String), l.filterMap (fun t =>
        match classify none (resumeSkillsSet rs) sents t with
        | SkillOutcome.semantic sem => some (t, sem.evidence, sem.confidence)
        | _ => none) = [] := by
      intro l
      apply List.filterMap_eq_nil_iff.mpr
      intro a _
      cases hc : classify none (resumeSkillsSet rs) sents a with
      | exact ctx => rfl
      | missing => rfl
      | semantic sem => exact absurd hc (classify_none_not_semantic _ _ _ _)
    show (mustTargets jd).filterMap _ ++ (goodTargets jd).filterMap _ = []
    rw [hnil, hnil]
    rfl
  · have hmem := List.mem_append.mp ht
    cases hc : classify none (resumeSkillsSet rs) sents t with
    | exact ctx => exact Or.inl (mem_exactList_iff.mpr ⟨hmem, ctx, hc⟩)
    | missing => exact Or.inr (mem_missingList_iff.mpr ⟨hmem, hc⟩)
    | semantic sem => exact absurd hc (classify_none_not_semantic _ _ _ _)

/-- C6 witness: the amended statement at a concrete call with the model
unavailable. -/
theorem c6_witness :
    (score none [] ⟨["python"], []⟩ []).semantic = []
    ∧ ("python" ∈ (score none [] ⟨["python"], []⟩ []).exact
      ∨ "python" ∈ (score none [] ⟨["python"], []⟩ []).missing) :=
  c6_no_model [] ⟨["python"], []⟩ [] "python" (by decide)

/-- C10: every target skill of a scoring call is recorded in exactly one of
the exact, semantic and missing breakdown lists, and every skill in the
contextual list also appears in the exact list. -/
theorem c10_partition (model : Option EmbedModel) (rs : List String)
    (jd : JdData) (sents : List String) (t : String)
    (ht : t ∈ mustTargets jd ++ goodTargets jd) :
    ((t ∈ (score model rs jd sents).exact
        ∧ t ∉ (score model rs jd sents).semantic.map Prod.fst
        ∧ t ∉ (score model rs jd sents).missing)
      ∨ (t ∉ (score model rs jd sents).exact
        ∧ t ∈ (score model rs jd sents).semantic.map Prod.fst
        ∧ t ∉ (score model rs jd sents).missing)
      ∨ (t ∉ (score model rs jd sents).exact
        ∧ t ∉ (score model rs jd sents).semantic.map Prod.fst
        ∧ t ∈ (score model rs jd sents).missing))
    ∧ ∀ e ∈ (score model rs jd sents).contextual,
        e.1 ∈ (score model rs jd sents).exact := by
  have hmem := List.mem_append.mp ht
  constructor
  · cases hc : classify model (resumeSkillsSet rs) sents t with
    | exact ctx =>
      left
      refine ⟨mem_exactList_iff.mpr ⟨hmem, ctx, hc⟩, ?_, ?_⟩
      · intro hsem
        obtain ⟨_, sem, hcs⟩ := mem_semanticSkills_iff.mp hsem
        rw [hc] at hcs
        cases hcs
      · intro hmiss
        obtain ⟨_, hcs⟩ := mem_missingList_iff.mp hmiss
        rw [hc] at hcs
        cases hcs
    | semantic sem =>
      right; left
      refine ⟨?_, mem_semanticSkills_iff.mpr ⟨hmem, sem, hc⟩, ?_⟩
      · intro hex
        obtain ⟨_, c, hcs⟩ := mem_exactList_iff.mp hex
        rw [hc] at hcs
        cases hcs
      · intro hmiss
        obtain ⟨_, hcs⟩ := mem_missingList_iff.mp hmiss
        rw [hc] at hcs
        cases hcs
    | missing =>
      right; right
      refine ⟨?_, ?_, mem_missingList_iff.mpr ⟨hmem, hc⟩⟩
      · intro hex
        obtain ⟨_, c, hcs⟩ := mem_exactList_iff.mp hex
        rw [hc] at hcs
        cases hcs
      · intro hsem
        obtain ⟨_, sem, hcs⟩ := mem_semanticSkills_iff.mp hsem
        rw [hc] at hcs
        cases hcs
  · intro e he
    exact mem_contextual_exact he

/-- C10 witness: the partition at a concrete call, where python is exact
and java is missing. -/
theorem c10_witness :
    (("java" ∈ (score none ["python"] ⟨["python", "java"], []⟩ []).exact
        ∧ "java" ∉ (score none ["python"] ⟨["python", "java"], []⟩ []).semantic.map Prod.fst
        ∧ "java" ∉ (score none ["python"] ⟨["python", "java"], []⟩ []).missing)
      ∨ ("java" ∉ (score none ["python"] ⟨["python", "java"], []⟩ []).exact
        ∧ "java" ∈ (score none ["python"] ⟨["python", "java"], []⟩ []).semantic.map Prod.fst
        ∧ "java" ∉ (score none ["python"] ⟨["python", "java"], []⟩ []).missing)
      ∨ ("java" ∉ (score none ["python"] ⟨["python", "java"], []⟩ []).exact
        ∧ "java" ∉ (score none ["python"] ⟨["python", "java"], []⟩ []).semantic.map Prod.fst
        ∧ "java" ∈ (score none ["python"] ⟨["python", "java"], []⟩ []).missing))
    ∧ ∀ e ∈ (score none ["python"] ⟨["python", "java"], []⟩ []).contextual,
        e.1 ∈ (score none ["python"] ⟨["python", "java"], []⟩ []).exact :=
  c10_partition none ["python"] ⟨["python", "java"], []⟩ [] "java" (by decide)

end Scorer

namespace Parse

/-! ## Lemmas about education records -/

theorem hasKey_setKey_self : ∀ (r : EduRec) (k v : String),
    hasKey (setKey r k v) k = true := by
  intro r k v
  induction r with
  | nil => simp [setKey, hasKey]
  | cons p t ih =>
    by_cases h : p.1 == k
    · simp [setKey, h, hasKey]
    · simp [setKey, h, hasKey, ih]

theorem hasKey_setKey_of_ne : ∀ (r : EduRec) {k k2 : String} (v : String),
    k2 ≠ k → hasKey (setKey r k v) k2 = hasKey r k2 := by
  intro r k k2 v hne
  induction r with
  | nil =>
    simp only [setKey, hasKey]
    have : (k == k2) = false := by
      simp only [beq_eq_false_iff_ne]
      exact fun h => hne h.symm
    simp [this]
  | cons p t ih =>
    by_cases h : p.1 == k
    · simp only [setKey, h, if_true, hasKey]
      have hp : p.1 = k := eq_of_beq h
      have h1 : (k == k2) = false := by
        simp only [beq_eq_false_iff_ne]
        exact fun h2 => hne h2.symm
      have h2 : (p.1 == k2) = false := by
        rw [hp]
        exact h1
      rw [h1, h2]
    · simp only [setKey, h, Bool.false_eq_true, if_false, hasKey, ih]

theorem mem_keys_setKey : ∀ (r : EduRec) (k v k2 : String),
    k2 ∈ (setKey r k v).map Prod.fst → k2 ∈ r.map Prod.fst ∨ k2 = k := by
  intro r k v k2 h
  induction r with
  | nil =>
    simp [setKey] at h
    exact Or.inr h
  | cons p t ih =>
    by_cases hp : p.1 == k
    · simp only [setKey, hp, if_true, List.map_cons, List.mem_cons] at h
      rcases h with h | h
      · exact Or.inr h
      · exact Or.inl (by simp [h])
    · simp only [setKey, hp, Bool.false_eq_true, if_false, List.map_cons,
        List.mem_cons] at h
      rcases h with h | h
      · exact Or.inl (by simp [h])
      · rcases ih h with h2 | h2
        · exact Or.inl (by simp only [List.map_cons, List.mem_cons]; exact Or.inr h2)
        · exact Or.inr h2

theorem stOk_flushIfCourse {st : EduState} (h : StOk st) :
    StOk (flushIfCourse st) := by
  unfold flushIfCourse
  by_cases hc : hasKey st.cur "course" = true
  · rw [if_pos hc]
    refine ⟨?_, by intro k hk; cases hk⟩
    intro r hr
    rcases List.mem_append.mp hr with hr | hr
    · exact h.1 r hr
    · rcases List.mem_singleton.mp hr with rfl
      exact ⟨hc, h.2⟩
  · rw [if_neg hc]
    exact h

theorem stOk_degreeStep (line : String) {st : EduState} (h : StOk st) :
    StOk (degreeStep line st) := by
  unfold degreeStep
  cases hd : degreeMatch? line with
  | none => exact h
  | some grp =>
    have h' := stOk_flushIfCourse h
    refine ⟨h'.1, ?_⟩
    intro k hk
    rcases mem_keys_setKey _ _ _ _ hk with h2 | h2
    · exact h'.2 k h2
    · rw [h2]; simp [eduKeys]

theorem stOk_collegeStep (line line_lower : String) {st : EduState}
    (h : StOk st) : StOk (collegeStep line line_lower st) := by
  unfold collegeStep
  split
  · cases hcn : collegeName? line with
    | none => exact h
    | some nm =>
      refine ⟨h.1, ?_⟩
      intro k hk
      rcases mem_keys_setKey _ _ _ _ hk with h2 | h2
      · exact h.2 k h2
      · rw [h2]; simp [eduKeys]
  · exact h

theorem stOk_yearStep (line : String) {st : EduState} (h : StOk st) :
    StOk (yearStep line st) := by
  unfold yearStep
  split
  · refine ⟨h.1, ?_⟩
    intro k hk
    rcases mem_keys_setKey _ _ _ _ hk with h2 | h2
    · exact h.2 k h2
    · rw [h2]; simp [eduKeys]
  · exact h

theorem stOk_cgpaStep (line_lower : String) {st : EduState} (h : StOk st) :
    StOk (cgpaStep line_lower st) := by
  unfold cgpaStep
  cases hc : cgpa? line_lower with
  | none => exact h
  | some v =>
    refine ⟨h.1, ?_⟩
    intro k hk
    rcases mem_keys_setKey _ _ _ _ hk with h2 | h2
    · exact h.2 k h2
    · rw [h2]; simp [eduKeys]

theorem stOk_eduStep (raw : String) {st : EduState} (h : StOk st) :
    StOk (eduStep st raw) := by
  unfold eduStep
  split
  · exact h
  · split
    · exact stOk_flushIfCourse h
    · exact stOk_cgpaStep _ (stOk_yearStep _ (stOk_collegeStep _ _
        (stOk_degreeStep _ h)))

theorem stOk_foldl : ∀ (lines : List String) (st : EduState), StOk st →
    StOk (lines.foldl eduStep st) := by
  intro lines
  induction lines with
  | nil => intro st h; exact h
  | cons l t ih =>
    intro st h
    exact ih _ (stOk_eduStep l h)

theorem extract_education_recOk {lines : List String} {rec : EduRec}
    (h : rec ∈ extract_education lines) : RecOk rec := by
  unfold extract_education at h
  have hst : StOk (lines.foldl eduStep ⟨[], []⟩) :=
    stOk_foldl lines ⟨[], []⟩
      ⟨(fun r hr => absurd hr (List.not_mem_nil r)),
       (fun k hk => absurd hk (List.not_mem_nil k))⟩
  exact (stOk_flushIfCourse hst).1 rec h

/-! ## Lemmas for the no degree case of extract_education -/

theorem noCourse_eduStep {st : EduState} {raw : String}
    (hcur : hasKey st.cur "course" = false)
    (hdeg : degreeMatch? (pyStrip raw) = none) :
    (eduStep st raw).out = st.out ∧ hasKey (eduStep st raw).cur "course" = false := by
  have hflush : flushIfCourse st = st := by
    unfold flushIfCourse
    rw [if_neg (by rw [hcur]; simp)]
  have hdegs : degreeStep (pyStrip raw) st = st := by
    unfold degreeStep
    rw [hdeg]
  unfold eduStep
  split
  · exact ⟨rfl, hcur⟩
  · split
    · rw [hflush]
      exact ⟨rfl, hcur⟩
    · rw [hdegs]
      have hcoll : (collegeStep (pyStrip raw) (pyLower (pyStrip raw)) st).out = st.out
          ∧ hasKey (collegeStep (pyStrip raw) (pyLower (pyStrip raw)) st).cur "course"
            = false := by
        unfold collegeStep
        split
        · cases hcn : collegeName? (pyStrip raw) with
          | none => exact ⟨rfl, hcur⟩
          | some nm =>
            exact ⟨rfl, by rw [hasKey_setKey_of_ne _ _ (by decide)]; exact hcur⟩
        · exact ⟨rfl, hcur⟩
      set st2 := collegeStep (pyStrip raw) (pyLower (pyStrip raw)) st with hst2
      have hyear : (yearStep (pyStrip raw) st2).out = st2.out
          ∧ hasKey (yearStep (pyStrip raw) st2).cur "course" = false := by
        unfold yearStep
        split
        · exact ⟨rfl, by rw [hasKey_setKey_of_ne _ _ (by decide)]; exact hcoll.2⟩
        · exact ⟨rfl, hcoll.2⟩
      set st3 := yearStep (pyStrip raw) st2 with hst3
      have hcg : (cgpaStep (pyLower (pyStrip raw)) st3).out = st3.out
          ∧ hasKey (cgpaStep (pyLower (pyStrip raw)) st3).cur "course" = false := by
        unfold cgpaStep
        cases hc : cgpa? (pyLower (pyStrip raw)) with
        | none => exact ⟨rfl, hyear.2⟩
        | some v =>
          exact ⟨rfl, by rw [hasKey_setKey_of_ne _ _ (by decide)]; exact hyear.2⟩
      refine ⟨?_, hcg.2⟩
      rw [hcg.1, hyear.1, hcoll.1]

theorem noCourse_foldl : ∀ (lines : List String) (st : EduState),
    hasKey st.cur "course" = false →
    (∀ l ∈ lines, degreeMatch? (pyStrip l) = none) →
    (lines.foldl eduStep st).out = st.out
      ∧ hasKey (lines.foldl eduStep st).cur "course" = false := by
  intro lines
  induction lines with
  | nil => intro st h _; exact ⟨rfl, h⟩
  | cons l t ih =>
    intro st h hno
    have h1 := noCourse_eduStep h (hno l (by simp))
    have h2 := ih (eduStep st l) h1.2 (fun x hx => hno x (by simp [hx]))
    refine ⟨?_, ?_⟩
    · rw [List.foldl_cons, h2.1, h1.1]
    · rw [List.foldl_cons]
      exact h2.2

/-! ## Claims about the education extractor -/

/-- C7 counterexample: the single line bachelor produces one record that
carries only the course key; the college, graduation_year and cgpa keys are
absent, not present with a null value, refuting the four key normalization
the claim asserts. -/
theorem c7_counterexample :
    extract_education ["bachelor"] = [[("course", "Bachelor")]]
    ∧ "college" ∉ (([("course", "Bachelor")] : EduRec).map Prod.fst) :=
  ⟨by decide, by decide⟩

/-- C7 (amended): every record returned by the education extractor carries
the course key, and every key it carries is one of course, college,
graduation_year and cgpa; keys for undetected fields are absent rather than
bound to a null. -/
theorem c7_record_shape (lines : List String) (rec : EduRec)
    (h : rec ∈ extract_education lines) :
    hasKey rec "course" = true
    ∧ ∀ k ∈ rec.map Prod.fst,
        k ∈ ["course", "college", "graduation_year", "cgpa"] :=
  extract_education_recOk h

/-- C7 witness: the amended shape at the concrete record produced from the
line bachelor. -/
theorem c7_witness :
    hasKey [("course", "Bachelor")] "course" = true
    ∧ ∀ k ∈ (([("course", "Bachelor")] : EduRec)).map Prod.fst,
        k ∈ ["course", "college", "graduation_year", "cgpa"] :=
  c7_record_shape ["bachelor"] [("course", "Bachelor")] (by decide)

/-- C8: every record emitted by the education extractor has a course, and
when no line matches either degree pattern (word bounded or the
concatenated fallback) no record is emitted at all, so institution, year or
cgpa lines alone never produce a record. -/
theorem c8_course_invariant (lines : List String) :
    (∀ rec ∈ extract_education lines, hasKey rec "course" = true)
    ∧ ((∀ l ∈ lines, degreeMatch? (pyStrip l) = none) →
        extract_education lines = []) := by
  constructor
  · intro rec h
    exact (extract_education_recOk h).1
  · intro hno
    unfold extract_education
    have h := noCourse_foldl lines ⟨[], []⟩ rfl hno
    have hflush : flushIfCourse (lines.foldl eduStep ⟨[], []⟩)
        = lines.foldl eduStep ⟨[], []⟩ := by
      unfold flushIfCourse
      rw [if_neg (by rw [h.2]; simp)]
    rw [hflush, h.1]

/-- C8 witness: an institution line, a year line and a cgpa line with no
degree line produce no record. -/
theorem c8_witness :
    (∀ l ∈ ["Some University", "2020", "cgpa: 9.1"],
      degreeMatch? (pyStrip l) = none)
    ∧ extract_education ["Some University", "2020", "cgpa: 9.1"] = [] := by
  have h : ∀ l ∈ ["Some University", "2020", "cgpa: 9.1"],
      degreeMatch? (pyStrip l) = none := by decide
  exact ⟨h, (c8_course_invariant ["Some University", "2020", "cgpa: 9.1"]).2 h⟩

/-! ## Lemmas about the skill collection -/

theorem mem_addSkill {l : List String} {a x : String}
    (h : x ∈ addSkill l a) : x ∈ l ∨ x = a := by
  unfold addSkill at h
  split at h
  · exact Or.inl h
  · rcases List.mem_append.mp h with h | h
    · exact Or.inl h
    · exact Or.inr (List.mem_singleton.mp h)

theorem nodup_addSkill {l : List String} {a : String} (h : l.Nodup) :
    (addSkill l a).Nodup := by
  unfold addSkill
  split
  · exact h
  · rename_i hmem
    simp [List.nodup_append, h, hmem]

theorem nodup_foldl_addSkill : ∀ (adds acc : List String), acc.Nodup →
    (List.foldl addSkill acc adds).Nodup := by
  intro adds
  induction adds with
  | nil => intro acc h; exact h
  | cons a t ih =>
    intro acc h
    rw [List.foldl_cons]
    exact ih _ (nodup_addSkill h)

theorem mem_foldl_addSkill : ∀ (adds acc : List String) (x : String),
    x ∈ List.foldl addSkill acc adds → x ∈ acc ∨ x ∈ adds := by
  intro adds
  induction adds with
  | nil => intro acc x h; exact Or.inl h
  | cons a t ih =>
    intro acc x h
    rw [List.foldl_cons] at h
    rcases ih _ x h with h2 | h2
    · rcases mem_addSkill h2 with h3 | h3
      · exact Or.inl h3
      · exact Or.inr (by simp [h3])
    · exact Or.inr (by simp [h2])

theorem lineAdds_title {line x : String} (h : x ∈ lineAdds line) :
    pyTitle x = x := by
  unfold lineAdds at h
  rcases List.mem_append.mp h with h | h
  · obtain ⟨y, _, rfl⟩ := List.mem_map.mp h
    exact pyTitle_idem y
  · split at h
    · obtain ⟨part, _, hpart⟩ := List.mem_filterMap.mp h
      simp only at hpart
      split at hpart
      · obtain rfl : pyTitle ⟨stripL part⟩ = x := by
          injection hpart
        exact pyTitle_idem _
      · cases hpart
    · cases h

theorem fallbackAdds_title {full_text x : String}
    (h : x ∈ fallbackAdds full_text) : pyTitle x = x := by
  unfold fallbackAdds at h
  obtain ⟨y, _, rfl⟩ := List.mem_map.mp h
  exact pyTitle_idem y

/-! ## Claims about extract_skills and parse_text -/

/-- C9: extract_skills returns a list sorted in the code point string
order, without duplicates, whose every element is title cased (a fixed
point of the title casing), and a second run on the same input returns the
same list, the function being a pure function of its input. -/
theorem c9_skills_sorted_idem (skill_lines project_techs : List String)
    (full_text : String) :
    List.Sorted pyStrLe (extract_skills skill_lines project_techs full_text)
    ∧ (extract_skills skill_lines project_techs full_text).Nodup
    ∧ (∀ x ∈ extract_skills skill_lines project_techs full_text, pyTitle x = x)
    ∧ extract_skills skill_lines project_techs full_text
        = extract_skills skill_lines project_techs full_text := by
  have key : ∀ wf : List String, wf.Nodup → (∀ x ∈ wf, pyTitle x = x) →
      List.Sorted pyStrLe (List.insertionSort pyStrLe wf)
      ∧ (List.insertionSort pyStrLe wf).Nodup
      ∧ (∀ x ∈ List.insertionSort pyStrLe wf, pyTitle x = x) := by
    intro wf hnd hti
    refine ⟨List.sorted_insertionSort pyStrLe wf, ?_, ?_⟩
    · exact (List.perm_insertionSort pyStrLe wf).symm.nodup hnd
    · intro x hx
      exact hti x ((List.perm_insertionSort pyStrLe wf).mem_iff.mp hx)
  have hadds_title : ∀ x ∈ (skill_lines.flatMap lineAdds
      ++ project_techs.map pyTitle), pyTitle x = x := by
    intro x hx
    rcases List.mem_append.mp hx with hx | hx
    · obtain ⟨line, _, hmem⟩ := List.mem_flatMap.mp hx
      exact lineAdds_title hmem
    · obtain ⟨y, _, rfl⟩ := List.mem_map.mp hx
      exact pyTitle_idem y
  have hbase_nodup : (((skill_lines.flatMap lineAdds)
      ++ project_techs.map pyTitle).foldl addSkill []).Nodup :=
    nodup_foldl_addSkill _ _ List.nodup_nil
  have hbase_title : ∀ x ∈ ((skill_lines.flatMap lineAdds)
      ++ project_techs.map pyTitle).foldl addSkill [], pyTitle x = x := by
    intro x hx
    rcases mem_foldl_addSkill _ _ x hx with h | h
    · exact absurd h (List.not_mem_nil x)
    · exact hadds_title x h
  have hwf_nodup : (if (((skill_lines.flatMap lineAdds)
      ++ project_techs.map pyTitle).foldl addSkill []).isEmpty then
        (fallbackAdds full_text).foldl addSkill
          (((skill_lines.flatMap lineAdds)
            ++ project_techs.map pyTitle).foldl addSkill [])
      else ((skill_lines.flatMap lineAdds)
        ++ project_techs.map pyTitle).foldl addSkill []).Nodup := by
    split
    · exact nodup_foldl_addSkill _ _ hbase_nodup
    · exact hbase_nodup
  have hwf_title : ∀ x ∈ (if (((skill_lines.flatMap lineAdds)
      ++ project_techs.map pyTitle).foldl addSkill []).isEmpty then
        (fallbackAdds full_text).foldl addSkill
          (((skill_lines.flatMap lineAdds)
            ++ project_techs.map pyTitle).foldl addSkill [])
      else ((skill_lines.flatMap lineAdds)
        ++ project_techs.map pyTitle).foldl addSkill []), pyTitle x = x := by
    split
    · intro x hx
      rcases mem_foldl_addSkill _ _ x hx with h | h
      · exact hbase_title x h
      · exact fallbackAdds_title h
    · exact hbase_title
  obtain ⟨h1, h2, h3⟩ := key _ hwf_nodup hwf_title
  exact ⟨h1, h2, h3, rfl⟩

/-- C9 witness: the guarantees of extract_skills at a concrete input. -/
theorem c9_witness :
    List.Sorted pyStrLe (extract_skills ["Languages: Python, Java"] [] "")
    ∧ (extract_skills ["Languages: Python, Java"] [] "").Nodup
    ∧ (∀ x ∈ extract_skills ["Languages: Python, Java"] [] "", pyTitle x = x)
    ∧ extract_skills ["Languages: Python, Java"] [] ""
        = extract_skills ["Languages: Python, Java"] [] "" :=
  c9_skills_sorted_idem ["Languages: Python, Java"] [] ""

/-- C2 counterexample: the dictionary returned by parse_text for the empty
document has exactly the keys name, email, phone, skills, education and
sentences; no experience key is present, refuting the claimed experience
field (the experience extractor is not reachable from parse_text in the
source). -/
theorem c2_counterexample :
    (parse_text "").map Prod.fst
      = ["name", "email", "phone", "skills", "education", "sentences"]
    ∧ "experience" ∉ (parse_text "").map Prod.fst :=
  ⟨by decide, by decide⟩

/-- C2 (amended): for every input text the parse result carries exactly the
keys name, email, phone, skills, education and sentences, in this order,
and in particular never an experience field. -/
theorem c2_parse_fields (text : String) :
    (parse_text text).map Prod.fst
      = ["name", "email", "phone", "skills", "education", "sentences"] := rfl

end Parse

end ViPilot
